import Mathlib

/-!
Verification development for the incremental build pipeline in `src/lib/build.ts`
(`buildApp` and `updateIpfs`).

Paths are modelled as plain strings over the POSIX separator `'/'` (`path.sep`).
String operations are modelled character-by-character with JavaScript semantics:
`String.prototype.replace` with a string pattern replaces only the *first*
occurrence, `split`/`join` with single-character separators, and Node's
`path.extname`.  JSON objects (the asset ledger `ipfs.json` and alias tables)
are modelled as association lists with unique keys preserved in insertion order.
-/

set_option maxRecDepth 8192

/-- `startsWith pat s`: does the character list `s` begin with `pat`? -/
def startsWith : List Char → List Char → Bool
  | [], _ => true
  | _ :: _, [] => false
  | a :: as, b :: bs => a == b && startsWith as bs

/-- JavaScript `String.prototype.replace` with a *string* pattern: only the first
occurrence of `pat` is replaced by `rep`; if `pat` does not occur, the string is
returned unchanged. -/
def replFirst (pat rep : List Char) : List Char → List Char
  | [] => []
  | c :: cs =>
    if startsWith pat (c :: cs) then rep ++ List.drop pat.length (c :: cs)
    else c :: replFirst pat rep cs

/-- The characters after the last occurrence of `sep` (used for the basename of
a path and for the extension of a basename). -/
def afterLast (sep : Char) (xs : List Char) : List Char :=
  xs.foldl (fun acc c => if c = sep then [] else acc ++ [c]) []

/-- JavaScript `String.prototype.split` on a single-character separator. -/
def splitCh (sep : Char) : List Char → List (List Char)
  | [] => [[]]
  | c :: cs =>
    match splitCh sep cs with
    | [] => [[]]
    | p :: ps => if c = sep then [] :: p :: ps else (c :: p) :: ps

/-- JavaScript `Array.prototype.join` with a single-character separator. -/
def joinCh (sep : Char) : List (List Char) → List Char
  | [] => []
  | [p] => p
  | p :: ps => p ++ sep :: joinCh sep ps

/-- Node `path.extname`: the suffix of the basename starting at its last dot;
empty when the basename contains no dot or only a leading dot. -/
def extnameCh (xs : List Char) : List Char :=
  match splitCh '.' (afterLast '/' xs) with
  | [] => []
  | [_] => []
  | p :: ps => if p = [] ∧ ps.length = 1 then [] else '.' :: ps.getLastD []

/-- `path.join` of two segments (modelled as plain concatenation with the
separator; all call sites in `build.ts` join already-normalized segments). -/
def pathJoin (a b : String) : String := ⟨a.data ++ '/' :: b.data⟩

/-- Node `path.extname` on strings. -/
def extname (s : String) : String := ⟨extnameCh s.data⟩

/-- JavaScript `s.replace(pat, rep)` (first occurrence only) on strings. -/
def replaceFirst (s pat rep : String) : String := ⟨replFirst pat.data rep.data s.data⟩

/-- Node `path.relative base p`, modelled for the case actually exercised in
`build.ts`: `p` lies strictly under `base`, and the result is `p` with the
`base ++ "/"` prefix removed. -/
def relativeTo (base p : String) : String :=
  if startsWith (base.data ++ ['/']) p.data then ⟨p.data.drop (base.data.length + 1)⟩ else p

/-- Extension filter used when cataloguing `module/` and `widget/` source files
(`build.ts` lines 46-59). -/
def allowedExt (e : String) : Bool :=
  e == ".js" || e == ".jsx" || e == ".ts" || e == ".tsx"

/-- Output file name of a module source unit (`build.ts` lines 98-100):
`path.relative(path.join(src, "module"), file).replace(path.sep, ".")`, then the
extension length is cut off the end, then `".module.js"` is appended. -/
def moduleOutName (src file : String) : String :=
  let rel := (relativeTo (pathJoin src "module") file).data
  let n1 := replFirst ['/'] ['.'] rel
  let n2 := n1.take (n1.length - (extnameCh file.data).length)
  ⟨n2 ++ ".module.js".data⟩

/-- Output file name of a widget source unit (`build.ts` lines 137-139): like a
module name but after cutting the extension the name is additionally
`.split(path.sep).join(".")`-ed, and the suffix is `".jsx"`. -/
def widgetOutName (src file : String) : String :=
  let rel := (relativeTo (pathJoin src "widget") file).data
  let n1 := replFirst ['/'] ['.'] rel
  let n2 := n1.take (n1.length - (extnameCh file.data).length)
  ⟨joinCh '.' (splitCh '/' n2) ++ ".jsx".data⟩

/-- Destination path of a build artifact: `path.join(dest, "src", "widget", name)`
(`build.ts` lines 102 and 141). -/
def outPath (dest name : String) : String :=
  pathJoin (pathJoin (pathJoin dest "src") "widget") name

/-- Logical module name put into the build context (`build.ts` line 63):
`path.relative(path.join(src, "module"), file.replace(path.extname(file), ""))`.
Note the `replace` removes the *first* occurrence of the extension substring
from the whole path. -/
def moduleName (src file : String) : String :=
  relativeTo (pathJoin src "module") (replaceFirst file (extname file) "")

/-- The module-name list of the build context, in catalog order. -/
def moduleNames (src : String) (files : List String) : List String :=
  files.map (moduleName src)

/-! ## JSON objects as association lists

`ipfs.json` (the asset ledger) and alias tables are JSON objects with string
values.  They are modelled as association lists in insertion order with unique
keys, exactly as JavaScript object operations behave. -/

/-- Property access `m[k]` on a JSON object. -/
def lookupKey : List (String × String) → String → Option String
  | [], _ => none
  | (k, v) :: rest, key => if k = key then some v else lookupKey rest key

/-- Property assignment `m[k] = v` on a JSON object: an existing key keeps its
position and gets the new value; a new key is appended. -/
def setKey (m : List (String × String)) (k v : String) : List (String × String) :=
  if (lookupKey m k).isSome then
    m.map (fun kv => if kv.1 = k then (k, v) else kv)
  else m ++ [(k, v)]

/-- JavaScript truthiness of `m[k]` negated: `!m[k]` is `true` when the key is
absent (`undefined`) or its value is the empty string (both are falsy). -/
def falsyAt (m : List (String × String)) (k : String) : Bool :=
  match lookupKey m k with
  | none => true
  | some v => v == ""

/-- The asset ledger persisted in `ipfs.json`. -/
abbrev Ledger := List (String × String)

/-- An alias table (contents of an `aliases.json`-style file). -/
abbrev AliasMap := List (String × String)

/-! ## The asset publisher (`updateIpfs`, `build.ts` lines 175-210) -/

/-- The files the publisher uploads: the loop at lines 188-194 uploads `file`
exactly when `!ipfsMap[file]`. -/
def publishCalls (ledger : Ledger) (files : List String) : List String :=
  files.filter (fun f => falsyAt ledger f)

/-- The `ipfsUploads` object accumulated by the loop at lines 187-194, given the
content-store client `upload` (`uploadToIPFS`, keyed here by the relative path;
the constant `path.join(pwd, "ipfs", ·)` prefix is absorbed into `upload`). -/
def ipfsUploadsOf (ledger : Ledger) (files : List String) (upload : String → String) : Ledger :=
  files.foldl (fun acc f => if falsyAt ledger f then setKey acc f (upload f) else acc) []

/-- The merged map returned by `updateIpfs` (lines 197-200, 209): a copy of the
loaded ledger with every uploaded entry assigned into it. -/
def newIpfsMap (ledger : Ledger) (files : List String) (upload : String → String) : Ledger :=
  (ipfsUploadsOf ledger files upload).foldl (fun m kv => setKey m kv.1 kv.2) ledger

/-! ## Alias merging (`build.ts` lines 28-33) -/

/-- `Object.assign(dst, src)`: assign every key of `src` into `dst` in order. -/
def assignObj (dst srcM : AliasMap) : AliasMap :=
  srcM.foldl (fun d kv => setKey d kv.1 kv.2) dst

/-- `config?.aliases || [path.join(src, "aliases.json")]` (line 28).  A present
alias list is used as is (in JavaScript even an empty array is truthy); a
missing config or missing `aliases` field falls back to the default. -/
def aliasSources (src : String) (cfg : Option (Option (List String))) : List String :=
  (cfg.bind id).getD [pathJoin src "aliases.json"]

/-- The alias-merge loop (lines 30-33): each source is read from
`path.join(src, aliasesSrc)`; a failed read (`.catch(() => ({}))`) contributes
an empty object; sources are `Object.assign`-ed left to right. -/
def loadAliases (src : String) (readJson : String → Option AliasMap)
    (srcs : List String) : AliasMap :=
  srcs.foldl (fun acc s => assignObj acc ((readJson (pathJoin src s)).getD [])) []

/-! ## The build orchestrator (`buildApp`, `build.ts` lines 18-173) -/

/-- The `ipfs` field of the resolved config.  All its fields are accessed behind
non-null assertions whose values are merely forwarded, so only its presence
matters to control flow. -/
structure IpfsCfg where
  uploadApi : Option String
  uploadApiHeaders : Option String
  gateway : Option String

/-- Resolved `bos.config.json` contents as used by `buildApp`. -/
structure Config where
  aliases : Option (List String)
  ipfs : Option IpfsCfg
  format : Option String
  deployAccount : Option String

/-- Side effects of one build, in program order.  `readAliases` is the read of
one alias source; `writeLedger` stands for the `writeJson`/`copy` pair that
persists and mirrors `ipfs.json`; `snapshot` is the `loopThroughFiles` walk that
collects `original_build_files`; `removeFile` is a reconciliation deletion;
`genData` is the `generateData` call. -/
inductive Effect where
  | readAliases (p : String)
  | publish (relPath : String)
  | writeLedger
  | snapshot
  | transpile (file : String)
  | writeOutput (p : String)
  | removeFile (p : String)
  | genData

/-- The environment a single `buildApp` call runs against.  `configResult` is
the outcome of `readConfig`: the `.catch` at line 24-26 swallows a rejection and
leaves `config` undefined, modelled as `none`.  `ledger` is the parsed
`ipfs.json` (the double fallback at line 178 yields an empty object on any read
failure).  `ipfsFiles` are the enumerated paths under `src/ipfs` relative to
that root; `moduleFiles`/`widgetFiles` the files enumerated under `src/module`
and `src/widget`; `priorOutputs` the files enumerated under `dest/src/widget`
before the build writes anything.  `transpile` is the external transpiler keyed
by source file (error = rejected `transpileJS` promise), `genData` the outcome
of `generateData`. -/
structure World where
  configResult : Option Config
  readJson : String → Option AliasMap
  ledger : Ledger
  ipfsFiles : List String
  upload : String → String
  moduleFiles : List String
  widgetFiles : List String
  priorOutputs : List String
  transpile : String → Except String String
  genData : Except String Unit

/-- The module catalog (lines 46-51): enumerated files filtered by extension. -/
def modulesOf (w : World) : List String :=
  w.moduleFiles.filter (fun f => allowedExt (extname f))

/-- The widget catalog (lines 53-59). -/
def widgetsOf (w : World) : List String :=
  w.widgetFiles.filter (fun f => allowedExt (extname f))

/-- One transpilation batch (the `for` loops at lines 80-106 and 117-145):
units are processed in order; each success appends a `transpile` and a
`writeOutput` effect and records the written path; the first failure appends
only its `transpile` effect and aborts the batch with that error.
Returns (effects, written output paths, batch result). -/
def processBatch (tr : String → Except String String) (out : String → String) :
    List String → List Effect × List String × Except String Unit
  | [] => ([], [], Except.ok ())
  | f :: fs =>
    match tr f with
    | Except.error e => ([Effect.transpile f], [], Except.error e)
    | Except.ok _ =>
      let r := processBatch tr out fs
      (Effect.transpile f :: Effect.writeOutput (out f) :: r.1,
       out f :: r.2.1, r.2.2)

/-- A directory listing after a sequence of `outputFile` writes: writing a path
creates it if absent and overwrites it otherwise. -/
def applyWrites (dir writes : List String) : List String :=
  writes.foldl (fun d p => if d.contains p then d else d ++ [p]) dir

/-- Observable outcome of a `buildApp` call: the surfaced result, the effect
trace, the merged alias table, `new_build_files`, and the final contents of the
`dest/src/widget` output directory. -/
structure BuildOutcome where
  result : Except String Unit
  effects : List Effect
  aliases : AliasMap
  newBuildFiles : List String
  finalOutputs : List String

/-- The effects of the `updateIpfs` call (publishes in enumeration order, then
the ledger persist/mirror iff at least one upload happened, lines 202-207). -/
def ipfsEffects (ledger : Ledger) (files : List String) : List Effect :=
  (publishCalls ledger files).map Effect.publish ++
    (if publishCalls ledger files = [] then [] else [Effect.writeLedger])

/-- The alias-read effects for a list of alias-source paths. -/
def readEffectsOf (paths : List String) : List Effect :=
  paths.map Effect.readAliases

/-- Shallow embedding of `buildApp src dest` (lines 18-173).  Control flow:
the config read failure is swallowed (line 24-26) and the aliases are merged
either way (lines 28-33); evaluating `config.ipfs!.uploadApi!` for the
`updateIpfs` call (lines 35-40) then throws a `TypeError` when `config` (or its
`ipfs` field) is undefined, rejecting the build before any publish.  Otherwise:
publish assets, catalog sources, snapshot `dest/src/widget`, transpile modules
then widgets (fail-fast per batch, lines 79-112 and 116-151), delete stale
prior outputs (lines 153-158), and finally evaluate
`config.accounts!.deploy!` and run `generateData` (lines 160-166). -/
def buildApp (src dest : String) (w : World) : BuildOutcome :=
  let aliasPaths := (aliasSources src (w.configResult.map Config.aliases)).map (pathJoin src)
  let aliasEffs := readEffectsOf aliasPaths
  let aliases := loadAliases src w.readJson (aliasSources src (w.configResult.map Config.aliases))
  match w.configResult with
  | none =>
    { result := Except.error "TypeError: undefined config"
      effects := aliasEffs
      aliases := aliases
      newBuildFiles := []
      finalOutputs := w.priorOutputs }
  | some cfg =>
    match cfg.ipfs with
    | none =>
      { result := Except.error "TypeError: undefined config.ipfs"
        effects := aliasEffs
        aliases := aliases
        newBuildFiles := []
        finalOutputs := w.priorOutputs }
    | some _ =>
      let ipfsEffs := ipfsEffects w.ledger w.ipfsFiles
      let mr := processBatch w.transpile (fun f => outPath dest (moduleOutName src f)) (modulesOf w)
      match mr.2.2 with
      | Except.error e =>
        { result := Except.error e
          effects := aliasEffs ++ (ipfsEffs ++ (Effect.snapshot :: mr.1))
          aliases := aliases
          newBuildFiles := mr.2.1
          finalOutputs := applyWrites w.priorOutputs mr.2.1 }
      | Except.ok _ =>
        let wr := processBatch w.transpile (fun f => outPath dest (widgetOutName src f)) (widgetsOf w)
        match wr.2.2 with
        | Except.error e =>
          { result := Except.error e
            effects := aliasEffs ++ (ipfsEffs ++ (Effect.snapshot :: (mr.1 ++ wr.1)))
            aliases := aliases
            newBuildFiles := mr.2.1 ++ wr.2.1
            finalOutputs := applyWrites w.priorOutputs (mr.2.1 ++ wr.2.1) }
        | Except.ok _ =>
          let newFiles := mr.2.1 ++ wr.2.1
          let removals := w.priorOutputs.filter (fun f => !(newFiles.contains f))
          let afterRec := (applyWrites w.priorOutputs newFiles).filter
            (fun p => !(removals.contains p))
          match cfg.deployAccount with
          | none =>
            { result := Except.error "TypeError: undefined config.accounts"
              effects := aliasEffs ++ (ipfsEffs ++ (Effect.snapshot ::
                (mr.1 ++ wr.1 ++ removals.map Effect.removeFile)))
              aliases := aliases
              newBuildFiles := newFiles
              finalOutputs := afterRec }
          | some _ =>
            { result := w.genData
              effects := aliasEffs ++ (ipfsEffs ++ (Effect.snapshot ::
                (mr.1 ++ wr.1 ++ removals.map Effect.removeFile ++ [Effect.genData])))
              aliases := aliases
              newBuildFiles := newFiles
              finalOutputs := afterRec }

/-- The source files transpiled during a build, in order. -/
def transpiledOf (effs : List Effect) : List String :=
  effs.filterMap (fun e => match e with | Effect.transpile f => some f | _ => none)

/-- The alias-source paths read during a build, in order. -/
def readPathsOf (effs : List Effect) : List String :=
  effs.filterMap (fun e => match e with | Effect.readAliases p => some p | _ => none)

/-- The output paths written during a build, in order. -/
def writtenOf (effs : List Effect) : List String :=
  effs.filterMap (fun e => match e with | Effect.writeOutput p => some p | _ => none)

/-- Every effect that mutates something or calls out: an asset publish, a ledger
write, a transpile invocation, an output write, a deletion, or metadata
generation.  Alias reads and the snapshot walk are pure reads. -/
def isSideEffect : Effect → Bool
  | Effect.publish _ => true
  | Effect.writeLedger => true
  | Effect.transpile _ => true
  | Effect.writeOutput _ => true
  | Effect.removeFile _ => true
  | Effect.genData => true
  | Effect.readAliases _ => false
  | Effect.snapshot => false

/-- Is this effect an artifact write? -/
def isWriteOutput : Effect → Bool
  | Effect.writeOutput _ => true
  | _ => false

/-! ## Association-list lemmas -/

/-- The keys of a JSON object, in order. -/
def keysOf (m : List (String × String)) : List String := m.map Prod.fst

theorem lookupKey_append_of_none {a : List (String × String)} {k : String}
    (h : lookupKey a k = none) (b : List (String × String)) :
    lookupKey (a ++ b) k = lookupKey b k := by
  induction a with
  | nil => rfl
  | cons kv rest ih =>
    obtain ⟨k', v'⟩ := kv
    by_cases hk : k' = k
    · simp [lookupKey, hk] at h
    · simp only [lookupKey, if_neg hk, List.cons_append] at h ⊢
      exact ih h

theorem lookupKey_append_of_some {a : List (String × String)} {k : String} {v : String}
    (h : lookupKey a k = some v) (b : List (String × String)) :
    lookupKey (a ++ b) k = some v := by
  induction a with
  | nil => simp [lookupKey] at h
  | cons kv rest ih =>
    obtain ⟨k', v'⟩ := kv
    by_cases hk : k' = k
    · simp only [lookupKey, if_pos hk, List.cons_append] at h ⊢
      exact h
    · simp only [lookupKey, if_neg hk, List.cons_append] at h ⊢
      exact ih h

theorem lookupKey_map_upd {k v : String} :
    ∀ m : List (String × String), (lookupKey m k).isSome →
    lookupKey (m.map (fun kv => if kv.1 = k then (k, v) else kv)) k = some v := by
  intro m
  induction m with
  | nil => intro h; simp [lookupKey] at h
  | cons kv rest ih =>
    obtain ⟨k', v'⟩ := kv
    intro h
    rw [List.map_cons]
    by_cases hk : k' = k
    · subst hk
      have h1 : (if (k', v').1 = k' then (k', v) else (k', v')) = (k', v) := by simp
      rw [h1]
      simp [lookupKey]
    · have h1 : (if (k', v').1 = k then (k, v) else (k', v')) = (k', v') := by simp [hk]
      rw [h1]
      simp only [lookupKey, if_neg hk] at h ⊢
      exact ih h

theorem lookupKey_map_upd_ne {k k' v : String} (hne : k' ≠ k) :
    ∀ m : List (String × String),
    lookupKey (m.map (fun kv => if kv.1 = k then (k, v) else kv)) k' = lookupKey m k' := by
  intro m
  induction m with
  | nil => rfl
  | cons kv rest ih =>
    obtain ⟨a, b⟩ := kv
    rw [List.map_cons]
    by_cases ha : a = k
    · subst ha
      have h1 : (if (a, b).1 = a then (a, v) else (a, b)) = (a, v) := by simp
      rw [h1]
      have h2 : ¬ (a = k') := fun h => hne h.symm
      simp only [lookupKey, if_neg h2, ih]
    · have h1 : (if (a, b).1 = k then (k, v) else (a, b)) = (a, b) := by simp [ha]
      rw [h1]
      simp only [lookupKey, ih]

theorem lookupKey_setKey_self (m : List (String × String)) (k v : String) :
    lookupKey (setKey m k v) k = some v := by
  unfold setKey
  by_cases h : (lookupKey m k).isSome
  · simp only [if_pos h]
    exact lookupKey_map_upd m h
  · simp only [if_neg h]
    have hn : lookupKey m k = none := by
      cases hx : lookupKey m k with
      | none => rfl
      | some v' => rw [hx] at h; simp at h
    rw [lookupKey_append_of_none hn]
    simp [lookupKey]

theorem lookupKey_setKey_ne (m : List (String × String)) (k k' v : String) (hne : k' ≠ k) :
    lookupKey (setKey m k v) k' = lookupKey m k' := by
  unfold setKey
  by_cases h : (lookupKey m k).isSome
  · simp only [if_pos h]
    exact lookupKey_map_upd_ne hne m
  · simp only [if_neg h]
    cases hx : lookupKey m k' with
    | some v' => exact lookupKey_append_of_some hx _
    | none =>
      rw [lookupKey_append_of_none hx]
      have h2 : ¬ (k = k') := fun h => hne h.symm
      simp [lookupKey, h2]

theorem lookupKey_none_iff (m : List (String × String)) (k : String) :
    lookupKey m k = none ↔ k ∉ keysOf m := by
  induction m with
  | nil => simp [lookupKey, keysOf]
  | cons kv rest ih =>
    obtain ⟨a, b⟩ := kv
    by_cases ha : a = k
    · subst ha
      simp [lookupKey, keysOf]
    · simp [lookupKey, ha, keysOf, ih, Ne.symm ha]

theorem keysOf_map_upd (m : List (String × String)) (k v : String) :
    keysOf (m.map (fun kv => if kv.1 = k then (k, v) else kv)) = keysOf m := by
  induction m with
  | nil => rfl
  | cons kv rest ih =>
    obtain ⟨a, b⟩ := kv
    rw [List.map_cons]
    by_cases ha : a = k
    · subst ha
      have h1 : (if (a, b).1 = a then (a, v) else (a, b)) = (a, v) := by simp
      rw [h1]
      simp only [keysOf, List.map_cons] at ih ⊢
      rw [ih]
    · have h1 : (if (a, b).1 = k then (k, v) else (a, b)) = (a, b) := by simp [ha]
      rw [h1]
      simp only [keysOf, List.map_cons] at ih ⊢
      rw [ih]

theorem keysOf_setKey (m : List (String × String)) (k v : String) :
    keysOf (setKey m k v) = if (lookupKey m k).isSome then keysOf m else keysOf m ++ [k] := by
  unfold setKey
  by_cases h : (lookupKey m k).isSome
  · simp only [if_pos h]
    exact keysOf_map_upd m k v
  · simp only [if_neg h, keysOf, List.map_append]
    rfl

theorem keysOf_setKey_nodup (m : List (String × String)) (k v : String)
    (h : (keysOf m).Nodup) : (keysOf (setKey m k v)).Nodup := by
  unfold setKey
  by_cases hs : (lookupKey m k).isSome
  · simpa only [if_pos hs, keysOf_map_upd]
  · have hn : lookupKey m k = none := by
      cases hx : lookupKey m k with
      | none => rfl
      | some v' => rw [hx] at hs; simp at hs
    have hk : k ∉ keysOf m := (lookupKey_none_iff m k).mp hn
    simp only [if_neg hs]
    have : keysOf (m ++ [(k, v)]) = keysOf m ++ [k] := by simp [keysOf]
    rw [this]
    simp [List.nodup_append, h, hk]

/-! ## C2 / C5: publisher lemmas -/

theorem uploads_keys_falsy (ledger : Ledger) (upload : String → String) :
    ∀ (files : List String) (acc : Ledger),
    (∀ x ∈ keysOf acc, falsyAt ledger x = true) →
    ∀ x ∈ keysOf (files.foldl
      (fun acc f => if falsyAt ledger f then setKey acc f (upload f) else acc) acc),
      falsyAt ledger x = true := by
  intro files
  induction files with
  | nil => intro acc h; simpa using h
  | cons g gs ih =>
    intro acc h
    simp only [List.foldl_cons]
    by_cases hg : falsyAt ledger g
    · simp only [if_pos hg]
      refine ih _ ?_
      intro x hx
      rw [keysOf_setKey] at hx
      by_cases hs : (lookupKey acc g).isSome
      · rw [if_pos hs] at hx; exact h x hx
      · rw [if_neg hs] at hx
        rcases List.mem_append.mp hx with hx | hx
        · exact h x hx
        · simp at hx; subst hx; exact hg
    · simp only [if_neg hg]
      exact ih _ h

theorem uploads_keys_nodup (ledger : Ledger) (upload : String → String) :
    ∀ (files : List String) (acc : Ledger), (keysOf acc).Nodup →
    (keysOf (files.foldl
      (fun acc f => if falsyAt ledger f then setKey acc f (upload f) else acc) acc)).Nodup := by
  intro files
  induction files with
  | nil => intro acc h; simpa using h
  | cons g gs ih =>
    intro acc h
    simp only [List.foldl_cons]
    by_cases hg : falsyAt ledger g
    · simp only [if_pos hg]
      exact ih _ (keysOf_setKey_nodup acc g (upload g) h)
    · simp only [if_neg hg]
      exact ih _ h

theorem uploads_lookup (ledger : Ledger) (upload : String → String) :
    ∀ (files : List String) (acc : Ledger) (f : String),
    falsyAt ledger f = true →
    (f ∈ files ∨ lookupKey acc f = some (upload f)) →
    lookupKey (files.foldl
      (fun acc f => if falsyAt ledger f then setKey acc f (upload f) else acc) acc) f
      = some (upload f) := by
  intro files
  induction files with
  | nil =>
    intro acc f _ h
    rcases h with h | h
    · simp at h
    · simpa using h
  | cons g gs ih =>
    intro acc f hf h
    simp only [List.foldl_cons]
    by_cases hfg : f = g
    · subst hfg
      simp only [if_pos hf]
      exact ih _ f hf (Or.inr (lookupKey_setKey_self acc f (upload f)))
    · rcases h with h | h
      · rcases List.mem_cons.mp h with h | h
        · exact absurd h hfg
        · by_cases hg : falsyAt ledger g <;> simp only [if_pos, if_neg, hg] <;>
            exact ih _ f hf (Or.inl h)
      · by_cases hg : falsyAt ledger g
        · simp only [if_pos hg]
          refine ih _ f hf (Or.inr ?_)
          rw [lookupKey_setKey_ne _ _ _ _ hfg]
          exact h
        · simp only [if_neg hg]
          exact ih _ f hf (Or.inr h)

theorem foldl_setKey_preserve (p : String) :
    ∀ (ups : Ledger) (m : Ledger), (∀ kv ∈ ups, kv.1 ≠ p) →
    lookupKey (ups.foldl (fun m kv => setKey m kv.1 kv.2) m) p = lookupKey m p := by
  intro ups
  induction ups with
  | nil => intro m _; rfl
  | cons kv rest ih =>
    intro m h
    simp only [List.foldl_cons]
    rw [ih _ (fun x hx => h x (List.mem_cons_of_mem _ hx))]
    exact lookupKey_setKey_ne m kv.1 p kv.2 (fun he => h kv (List.mem_cons_self _ _) he.symm)

theorem foldl_setKey_of_nodup (f v : String) :
    ∀ (ups : Ledger) (m : Ledger), lookupKey ups f = some v → (keysOf ups).Nodup →
    lookupKey (ups.foldl (fun m kv => setKey m kv.1 kv.2) m) f = some v := by
  intro ups
  induction ups with
  | nil => intro m h; simp [lookupKey] at h
  | cons kv rest ih =>
    intro m h hnd
    obtain ⟨k, w⟩ := kv
    simp only [keysOf, List.map_cons, List.nodup_cons] at hnd
    by_cases hk : k = f
    · subst hk
      simp only [lookupKey, if_pos rfl] at h
      injection h with hw
      subst hw
      simp only [List.foldl_cons]
      rw [foldl_setKey_preserve k rest _ ?_]
      · exact lookupKey_setKey_self m k _
      · intro x hx he
        exact hnd.1 (he ▸ List.mem_map_of_mem Prod.fst hx)
    · simp only [lookupKey, if_neg hk] at h
      simp only [List.foldl_cons]
      exact ih _ h hnd.2

/-- Any path with a truthy (non-empty) value in the loaded ledger keeps exactly
that value through `updateIpfs`. -/
theorem newIpfsMap_preserves_truthy (ledger : Ledger) (files : List String)
    (upload : String → String) (p v : String)
    (h1 : lookupKey ledger p = some v) (h2 : v ≠ "") :
    lookupKey (newIpfsMap ledger files upload) p = some v := by
  unfold newIpfsMap
  rw [foldl_setKey_preserve p _ ledger ?_]
  · exact h1
  · intro kv hkv he
    have hk : kv.1 ∈ keysOf (ipfsUploadsOf ledger files upload) :=
      List.mem_map_of_mem Prod.fst hkv
    have := uploads_keys_falsy ledger upload files [] (by simp [keysOf]) kv.1 hk
    rw [he] at this
    rw [falsyAt, h1] at this
    exact h2 (by simpa using this)

/-- After one run, every enumerated file's entry in the returned map is the
uploaded identifier (when it was falsy before) and in particular non-falsy as
long as identifiers are non-empty. -/
theorem newIpfsMap_not_falsy (ledger : Ledger) (files : List String)
    (upload : String → String) (h : ∀ f ∈ files, upload f ≠ "") :
    ∀ f ∈ files, falsyAt (newIpfsMap ledger files upload) f = false := by
  intro f hf
  by_cases hfal : falsyAt ledger f
  · have hup : lookupKey (ipfsUploadsOf ledger files upload) f = some (upload f) :=
      uploads_lookup ledger upload files [] f hfal (Or.inl hf)
    have hnd : (keysOf (ipfsUploadsOf ledger files upload)).Nodup :=
      uploads_keys_nodup ledger upload files [] (by simp [keysOf])
    have : lookupKey (newIpfsMap ledger files upload) f = some (upload f) :=
      foldl_setKey_of_nodup f (upload f) _ ledger hup hnd
    rw [falsyAt, this]
    simpa using h f hf
  · have h1 : ∃ v, lookupKey ledger f = some v ∧ v ≠ "" := by
      rw [falsyAt] at hfal
      cases hx : lookupKey ledger f with
      | none => rw [hx] at hfal; simp at hfal
      | some v =>
        rw [hx] at hfal
        exact ⟨v, rfl, by simpa using hfal⟩
    obtain ⟨v, hv, hvne⟩ := h1
    have : lookupKey (newIpfsMap ledger files upload) f = some v :=
      newIpfsMap_preserves_truthy ledger files upload f v hv hvne
    rw [falsyAt, this]
    simpa using hvne

theorem ipfsUploadsOf_empty_of_no_falsy (m : Ledger) (upload : String → String) :
    ∀ files : List String, (∀ f ∈ files, falsyAt m f = false) →
    ipfsUploadsOf m files upload = [] := by
  intro files
  induction files with
  | nil => intro _; rfl
  | cons g gs ih =>
    intro h
    have hg : falsyAt m g = false := h g (List.mem_cons_self _ _)
    have h' : ∀ f ∈ gs, falsyAt m f = false :=
      fun f hf => h f (List.mem_cons_of_mem _ hf)
    simp only [ipfsUploadsOf, List.foldl_cons, hg] at ih ⊢
    simp only [Bool.false_eq_true, if_false]
    exact ih h'

theorem newIpfsMap_id_of_no_falsy (m : Ledger) (files : List String)
    (upload : String → String) (h : ∀ f ∈ files, falsyAt m f = false) :
    newIpfsMap m files upload = m := by
  unfold newIpfsMap
  rw [ipfsUploadsOf_empty_of_no_falsy m upload files h]
  rfl

/-- Claim C2 (amended): the asset ledger is monotonic for truthy entries — for
every path `p` whose value in the loaded ledger is a non-empty string, running
the publisher never changes or removes `ledger[p]`, regardless of the on-disk
content at `p`, and only paths that are absent or have a falsy (empty) value
gain or change entries. -/
theorem publisher_monotonic_on_truthy_entries (ledger : Ledger) (files : List String)
    (upload : String → String) (p v : String)
    (h1 : lookupKey ledger p = some v) (h2 : v ≠ "") :
    lookupKey (newIpfsMap ledger files upload) p = some v :=
  newIpfsMap_preserves_truthy ledger files upload p v h1 h2

theorem publisher_monotonic_on_truthy_entries_witness :
    lookupKey [("a", "x")] "a" = some "x" ∧ ("x" : String) ≠ "" ∧
    lookupKey (newIpfsMap [("a", "x")] ["a", "b"] (fun _ => "q")) "a" = some "x" :=
  ⟨by decide, by decide,
    publisher_monotonic_on_truthy_entries [("a", "x")] ["a", "b"] (fun _ => "q") "a" "x"
      (by decide) (by decide)⟩

/-- Claim C2 counterexample: the guard at line 189 is `!ipfsMap[file]`, which is
JavaScript-falsy for an *existing* key whose value is the empty string.  A path
`"a"` that is already a key of the loaded ledger (with value `""`) is
re-published and its ledger value is overwritten by the new identifier, so the
claim "for every path that is already a key, its value never changes" is false
as stated. -/
theorem publisher_overwrites_empty_valued_entry :
    lookupKey [("a", "")] "a" = some "" ∧
    lookupKey (newIpfsMap [("a", "")] ["a"] (fun _ => "cid")) "a" = some "cid" ∧
    some "cid" ≠ some "" := by
  decide

/-- Claim C5 (amended): publishing is idempotent as long as the content store
returns non-empty identifiers — a second run on the same enumerated paths with
the ledger produced by the first run performs zero publish calls and returns an
identical map. -/
theorem publisher_idempotent_on_nonempty_cids (ledger : Ledger) (files : List String)
    (upload : String → String) (h : ∀ f ∈ files, upload f ≠ "") :
    publishCalls (newIpfsMap ledger files upload) files = [] ∧
    newIpfsMap (newIpfsMap ledger files upload) files upload
      = newIpfsMap ledger files upload := by
  have hnf := newIpfsMap_not_falsy ledger files upload h
  constructor
  · unfold publishCalls
    rw [List.filter_eq_nil_iff]
    intro f hf
    simp [hnf f hf]
  · exact newIpfsMap_id_of_no_falsy _ files upload hnf

theorem publisher_idempotent_on_nonempty_cids_witness :
    publishCalls (newIpfsMap [("b", "old")] ["a", "b"] (fun _ => "Qm1")) ["a", "b"] = [] ∧
    newIpfsMap (newIpfsMap [("b", "old")] ["a", "b"] (fun _ => "Qm1")) ["a", "b"]
      (fun _ => "Qm1") = newIpfsMap [("b", "old")] ["a", "b"] (fun _ => "Qm1") :=
  publisher_idempotent_on_nonempty_cids [("b", "old")] ["a", "b"] (fun _ => "Qm1")
    (by decide)

/-- Claim C5 counterexample: a content identifier can be any string, and when
the store returns the empty string the persisted entry is falsy again, so the
second run on the unchanged directory performs a publish call (one, not zero) —
the claim is false without an assumption on the identifiers. -/
theorem publisher_republishes_on_empty_cid :
    newIpfsMap [] ["a"] (fun _ => "") = [("a", "")] ∧
    publishCalls (newIpfsMap [] ["a"] (fun _ => "")) ["a"] = ["a"] ∧
    (["a"] : List String) ≠ [] := by
  decide

/-! ## C7 / C9: alias merging -/

theorem lookupKey_assignObj_of_not_mem (k : String) :
    ∀ (m d : AliasMap), k ∉ keysOf m → lookupKey (assignObj d m) k = lookupKey d k := by
  intro m
  induction m with
  | nil => intro d _; rfl
  | cons kv rest ih =>
    intro d hk
    obtain ⟨a, b⟩ := kv
    simp only [keysOf, List.map_cons, List.mem_cons] at hk
    push_neg at hk
    simp only [assignObj, List.foldl_cons]
    have := ih (setKey d a b) (by simpa [keysOf] using hk.2)
    simp only [assignObj] at this
    rw [this]
    exact lookupKey_setKey_ne d a k b hk.1

theorem lookupKey_assignObj_of_some (k v : String) :
    ∀ (m d : AliasMap), lookupKey m k = some v → (keysOf m).Nodup →
    lookupKey (assignObj d m) k = some v := by
  intro m
  induction m with
  | nil => intro d h; simp [lookupKey] at h
  | cons kv rest ih =>
    intro d h hnd
    obtain ⟨a, b⟩ := kv
    simp only [keysOf, List.map_cons, List.nodup_cons] at hnd
    simp only [assignObj, List.foldl_cons]
    by_cases ha : a = k
    · subst ha
      simp only [lookupKey, if_pos rfl] at h
      injection h with hb
      subst hb
      have := lookupKey_assignObj_of_not_mem a rest (setKey d a b) (by simpa [keysOf] using hnd.1)
      simp only [assignObj] at this
      rw [this]
      exact lookupKey_setKey_self d a b
    · simp only [lookupKey, if_neg ha] at h
      exact ih (setKey d a b) h hnd.2

/-- A concrete pair of alias files used to exhibit the spec's merge example. -/
def aliasFilesEx : String → Option AliasMap := fun p =>
  if p = pathJoin "" "x" then some [("a", "1")]
  else if p = pathJoin "" "y" then some [("a", "2"), ("b", "3")]
  else none

/-- Claim C7: alias merging is an ordered left-to-right fold — a key of the last
source wins over earlier sources, a source whose load fails contributes an empty
mapping instead of aborting, and the spec's example `[{a:1}, {a:2, b:3}]`
merges to `{a:2, b:3}`. -/
theorem alias_merge_ordered_overwrite (src : String) (rj : String → Option AliasMap)
    (ss : List String) (s : String) (m : AliasMap) (k v : String)
    (hm : rj (pathJoin src s) = some m)
    (hk : lookupKey m k = some v) (hnd : (keysOf m).Nodup) :
    lookupKey (loadAliases src rj (ss ++ [s])) k = some v ∧
    (∀ (ts : List String) (bad : String), rj (pathJoin src bad) = none →
      loadAliases src rj (ss ++ bad :: ts) = loadAliases src rj (ss ++ ts)) ∧
    loadAliases "" aliasFilesEx ["x", "y"] = [("a", "2"), ("b", "3")] := by
  refine ⟨?_, ?_, by decide⟩
  · unfold loadAliases
    rw [List.foldl_append]
    simp only [List.foldl_cons, List.foldl_nil, hm, Option.getD_some]
    exact lookupKey_assignObj_of_some k v m _ hk hnd
  · intro ts bad hbad
    unfold loadAliases
    rw [List.foldl_append, List.foldl_append, List.foldl_cons, hbad]
    rfl

theorem alias_merge_ordered_overwrite_witness :
    lookupKey (loadAliases "" aliasFilesEx (["x"] ++ ["y"])) "a" = some "2" ∧
    (∀ (ts : List String) (bad : String), aliasFilesEx (pathJoin "" bad) = none →
      loadAliases "" aliasFilesEx (["x"] ++ bad :: ts) = loadAliases "" aliasFilesEx (["x"] ++ ts)) ∧
    loadAliases "" aliasFilesEx ["x", "y"] = [("a", "2"), ("b", "3")] :=
  alias_merge_ordered_overwrite "" aliasFilesEx ["x"] "y" [("a", "2"), ("b", "3")] "a" "2"
    (by decide) (by decide) (by decide)

/-! ## buildApp projection lemmas -/

theorem readPathsOf_append (a b : List Effect) :
    readPathsOf (a ++ b) = readPathsOf a ++ readPathsOf b := by
  simp [readPathsOf]

theorem readPathsOf_reads (ps : List String) :
    readPathsOf (readEffectsOf ps) = ps := by
  induction ps with
  | nil => rfl
  | cons p ps ih =>
    show p :: readPathsOf (readEffectsOf ps) = p :: ps
    rw [ih]

theorem readPathsOf_snapshot_cons (l : List Effect) :
    readPathsOf (Effect.snapshot :: l) = readPathsOf l := rfl

theorem readPathsOf_gen_single : readPathsOf [Effect.genData] = [] := rfl

theorem readPathsOf_publishes (ps : List String) :
    readPathsOf (ps.map Effect.publish) = [] := by
  induction ps with
  | nil => rfl
  | cons p ps ih =>
    show readPathsOf (ps.map Effect.publish) = []
    exact ih

theorem readPathsOf_removes (ps : List String) :
    readPathsOf (ps.map Effect.removeFile) = [] := by
  induction ps with
  | nil => rfl
  | cons p ps ih =>
    show readPathsOf (ps.map Effect.removeFile) = []
    exact ih

theorem readPathsOf_ipfsEffects (l : Ledger) (files : List String) :
    readPathsOf (ipfsEffects l files) = [] := by
  unfold ipfsEffects
  rw [readPathsOf_append, readPathsOf_publishes]
  by_cases h : publishCalls l files = [] <;> simp [h, readPathsOf]

theorem readPathsOf_batch (tr : String → Except String String) (out : String → String) :
    ∀ fs : List String, readPathsOf (processBatch tr out fs).1 = [] := by
  intro fs
  induction fs with
  | nil => rfl
  | cons f fs ih =>
    cases htr : tr f with
    | error e => simp [processBatch, htr, readPathsOf]
    | ok c =>
      simp only [processBatch, htr]
      exact ih

/-- In every run, the alias-source paths read are exactly the configured (or
default) sources, each joined onto `src` a second time. -/
theorem buildApp_readPaths (src dest : String) (w : World) :
    readPathsOf (buildApp src dest w).effects
      = (aliasSources src (w.configResult.map Config.aliases)).map (pathJoin src) := by
  cases hcr : w.configResult with
  | none =>
    simp only [buildApp, hcr, readPathsOf_reads]
  | some cfg =>
    cases hip : cfg.ipfs with
    | none =>
      simp only [buildApp, hcr, hip, readPathsOf_reads]
    | some ic =>
      cases hmr : (processBatch w.transpile
          (fun f => outPath dest (moduleOutName src f)) (modulesOf w)).2.2 with
      | error e =>
        simp only [buildApp, hcr, hip, hmr, readPathsOf_append, readPathsOf_snapshot_cons,
          readPathsOf_reads, readPathsOf_ipfsEffects, readPathsOf_batch,
          readPathsOf_removes, readPathsOf_gen_single, List.append_nil, List.nil_append]
      | ok u =>
        cases hwr : (processBatch w.transpile
            (fun f => outPath dest (widgetOutName src f)) (widgetsOf w)).2.2 with
        | error e =>
          simp only [buildApp, hcr, hip, hmr, hwr, readPathsOf_append,
            readPathsOf_snapshot_cons, readPathsOf_reads, readPathsOf_ipfsEffects,
            readPathsOf_batch, readPathsOf_removes, readPathsOf_gen_single,
            List.append_nil, List.nil_append]
        | ok u' =>
          cases hda : cfg.deployAccount with
          | none =>
            simp only [buildApp, hcr, hip, hmr, hwr, hda, readPathsOf_append,
              readPathsOf_snapshot_cons, readPathsOf_reads, readPathsOf_ipfsEffects,
              readPathsOf_batch, readPathsOf_removes, readPathsOf_gen_single,
              List.append_nil, List.nil_append]
          | some acct =>
            simp only [buildApp, hcr, hip, hmr, hwr, hda, readPathsOf_append,
              readPathsOf_snapshot_cons, readPathsOf_reads, readPathsOf_ipfsEffects,
              readPathsOf_batch, readPathsOf_removes, readPathsOf_gen_single,
              List.append_nil, List.nil_append]

/-- In every run, the returned alias table is the merged table of the
configured (or default) sources. -/
theorem buildApp_aliases (src dest : String) (w : World) :
    (buildApp src dest w).aliases
      = loadAliases src w.readJson (aliasSources src (w.configResult.map Config.aliases)) := by
  cases hcr : w.configResult with
  | none => simp [buildApp, hcr]
  | some cfg =>
    cases hip : cfg.ipfs with
    | none => simp [buildApp, hcr, hip]
    | some ic =>
      cases hmr : (processBatch w.transpile
          (fun f => outPath dest (moduleOutName src f)) (modulesOf w)).2.2 with
      | error e => simp [buildApp, hcr, hip, hmr]
      | ok u =>
        cases hwr : (processBatch w.transpile
            (fun f => outPath dest (widgetOutName src f)) (widgetsOf w)).2.2 with
        | error e => simp [buildApp, hcr, hip, hmr, hwr]
        | ok u' =>
          cases hda : cfg.deployAccount with
          | none => simp [buildApp, hcr, hip, hmr, hwr, hda]
          | some acct => simp [buildApp, hcr, hip, hmr, hwr, hda]

/-- A resolved config with no `aliases`, no `ipfs` and no `accounts` field. -/
def cfgBare : Config :=
  { aliases := none, ipfs := none, format := none, deployAccount := none }

/-- A minimal world whose config read succeeded with `cfgBare`. -/
def wBare : World :=
  { configResult := some cfgBare
    readJson := fun _ => none
    ledger := []
    ipfsFiles := []
    upload := fun _ => ""
    moduleFiles := []
    widgetFiles := []
    priorOutputs := []
    transpile := fun _ => Except.error "no transpiler"
    genData := Except.ok () }

/-! ## C1: config failure short-circuit -/

theorem reads_not_side_effects (ps : List String) :
    (ps.map Effect.readAliases).all (fun e => !(isSideEffect e)) = true := by
  induction ps with
  | nil => rfl
  | cons p ps ih =>
    show (!(isSideEffect (Effect.readAliases p)) && _) = true
    simp only [isSideEffect, Bool.not_false, Bool.true_and]
    exact ih

/-- Claim C1: if configuration loading fails, the build surfaces an error (the
`TypeError` raised while evaluating `config.ipfs!` for the publisher call) and
the effect trace contains no asset publish, no transpile call, no output write,
no ledger write, no deletion and no metadata generation — only the alias-source
reads that precede the failing access. -/
theorem config_failure_short_circuit (src dest : String) (w : World)
    (hc : w.configResult = none) :
    (buildApp src dest w).result = Except.error "TypeError: undefined config" ∧
    (buildApp src dest w).effects.all (fun e => !(isSideEffect e)) = true := by
  constructor
  · simp [buildApp, hc]
  · simp only [buildApp, hc]
    exact reads_not_side_effects _

/-- A world whose config read was rejected (`.catch` leaves it undefined). -/
def wNoConfig : World :=
  { configResult := none
    readJson := fun _ => some [("alias", "target")]
    ledger := [("seen", "Qm0")]
    ipfsFiles := ["seen", "new"]
    upload := fun _ => "Qm1"
    moduleFiles := ["app/module/a.ts"]
    widgetFiles := ["app/widget/b.jsx"]
    priorOutputs := ["out/src/widget/stale.jsx"]
    transpile := fun _ => Except.ok "code"
    genData := Except.ok () }

theorem config_failure_short_circuit_witness :
    (buildApp "app" "out" wNoConfig).result = Except.error "TypeError: undefined config" ∧
    (buildApp "app" "out" wNoConfig).effects.all (fun e => !(isSideEffect e)) = true :=
  config_failure_short_circuit "app" "out" wNoConfig rfl

/-! ## C4: reconciliation -/

theorem contains_iff (l : List String) (a : String) : l.contains a = true ↔ a ∈ l :=
  List.elem_iff

theorem contains_eq_false_iff (l : List String) (a : String) :
    l.contains a = false ↔ a ∉ l := by
  rw [← contains_iff]
  cases l.contains a <;> simp

theorem mem_applyWrites (p : String) :
    ∀ (ws d : List String), p ∈ applyWrites d ws ↔ p ∈ d ∨ p ∈ ws := by
  intro ws
  induction ws with
  | nil => intro d; simp [applyWrites]
  | cons x ws ih =>
    intro d
    show p ∈ applyWrites (if d.contains x then d else d ++ [x]) ws ↔ _
    rw [ih]
    by_cases hc : d.contains x
    · have hxd : x ∈ d := (contains_iff d x).mp hc
      simp only [if_pos hc, List.mem_cons]
      constructor
      · rintro (h | h)
        · exact Or.inl h
        · exact Or.inr (Or.inr h)
      · rintro (h | rfl | h)
        · exact Or.inl h
        · exact Or.inl hxd
        · exact Or.inr h
    · simp only [if_neg hc, List.mem_append, List.mem_cons, List.mem_singleton]
      tauto

/-- Membership in the output directory after writing the new files and deleting
every prior path not among them: exactly the new files remain. -/
theorem final_outputs_mem (prior new : List String) (p : String) :
    p ∈ (applyWrites prior new).filter
        (fun q => !((prior.filter (fun f => !(new.contains f))).contains q))
      ↔ p ∈ new := by
  simp only [List.mem_filter, mem_applyWrites, Bool.not_eq_true',
    contains_eq_false_iff, List.mem_filter]
  constructor
  · rintro ⟨h1 | h1, h2⟩
    · by_cases hn : p ∈ new
      · exact hn
      · exact absurd ⟨h1, by simp [hn]⟩ h2
    · exact h1
  · intro h
    refine ⟨Or.inr h, ?_⟩
    rintro ⟨-, h2⟩
    exact h2 h

theorem exists_snapshot_decomp (A B T : List Effect)
    (hA : A.all (fun e => !(isWriteOutput e)) = true)
    (hB : B.all (fun e => !(isWriteOutput e)) = true) :
    ∃ pre post, A ++ (B ++ (Effect.snapshot :: T)) = pre ++ Effect.snapshot :: post ∧
      pre.all (fun e => !(isWriteOutput e)) = true :=
  ⟨A ++ B, T, by simp [List.append_assoc], by simp [List.all_append, hA, hB]⟩

theorem readEffects_no_write (ps : List String) :
    (readEffectsOf ps).all (fun e => !(isWriteOutput e)) = true := by
  induction ps with
  | nil => rfl
  | cons p ps ih =>
    show (!(isWriteOutput (Effect.readAliases p)) && _) = true
    simp only [isWriteOutput, Bool.not_false, Bool.true_and]
    exact ih

theorem publishes_no_write (ps : List String) :
    (ps.map Effect.publish).all (fun e => !(isWriteOutput e)) = true := by
  induction ps with
  | nil => rfl
  | cons p ps ih =>
    show (!(isWriteOutput (Effect.publish p)) && _) = true
    simp only [isWriteOutput, Bool.not_false, Bool.true_and]
    exact ih

theorem ipfsEffects_no_write (l : Ledger) (files : List String) :
    (ipfsEffects l files).all (fun e => !(isWriteOutput e)) = true := by
  unfold ipfsEffects
  rw [List.all_append, publishes_no_write]
  by_cases h : publishCalls l files = [] <;> simp [h, isWriteOutput]

/-- Claim C4: the snapshot of prior outputs is taken before any artifact write
(the effect trace decomposes as a write-free prefix, then the snapshot, then the
rest), and when both batches complete the output directory afterwards contains
exactly the new artifact paths: prior paths not among them are deleted, new
paths (including re-written prior ones) are present. -/
theorem reconcile_converges_to_new_artifacts (src dest : String) (w : World) (cfg : Config)
    (ic : IpfsCfg) (hc : w.configResult = some cfg) (hi : cfg.ipfs = some ic)
    (hm : (processBatch w.transpile (fun f => outPath dest (moduleOutName src f))
        (modulesOf w)).2.2 = Except.ok ())
    (hw : (processBatch w.transpile (fun f => outPath dest (widgetOutName src f))
        (widgetsOf w)).2.2 = Except.ok ()) :
    (∃ pre post, (buildApp src dest w).effects = pre ++ Effect.snapshot :: post ∧
      pre.all (fun e => !(isWriteOutput e)) = true) ∧
    (∀ p, p ∈ (buildApp src dest w).finalOutputs ↔ p ∈ (buildApp src dest w).newBuildFiles) := by
  cases hda : cfg.deployAccount
  all_goals
    simp only [buildApp, hc, hi, hm, hw, hda]
    exact ⟨exists_snapshot_decomp _ _ _ (readEffects_no_write _) (ipfsEffects_no_write _ _),
      fun p => final_outputs_mem w.priorOutputs _ p⟩

/-- A full resolved config (present `ipfs` and `accounts` sections). -/
def cfgFull : Config :=
  { aliases := none
    ipfs := some { uploadApi := some "u", uploadApiHeaders := none, gateway := some "g" }
    format := some "typescript"
    deployAccount := some "acct" }

/-- A world in which every transpile call succeeds. -/
def wOk : World :=
  { configResult := some cfgFull
    readJson := fun _ => none
    ledger := []
    ipfsFiles := []
    upload := fun _ => "Qm"
    moduleFiles := ["app/module/a.ts"]
    widgetFiles := ["app/widget/b.jsx"]
    priorOutputs := ["out/src/widget/stale.jsx"]
    transpile := fun _ => Except.ok "code"
    genData := Except.ok () }

theorem reconcile_converges_to_new_artifacts_witness :
    (∃ pre post, (buildApp "app" "out" wOk).effects = pre ++ Effect.snapshot :: post ∧
      pre.all (fun e => !(isWriteOutput e)) = true) ∧
    (∀ p, p ∈ (buildApp "app" "out" wOk).finalOutputs
      ↔ p ∈ (buildApp "app" "out" wOk).newBuildFiles) :=
  reconcile_converges_to_new_artifacts "app" "out" wOk cfgFull
    { uploadApi := some "u", uploadApiHeaders := none, gateway := some "g" }
    rfl rfl rfl rfl

/-! ## C6: fail-fast batches -/

/-- Is a transpiler result a success? -/
def trOk : Except String String → Bool
  | Except.ok _ => true
  | Except.error _ => false

/-- The effect trace of a fully successful run over a list of units. -/
def okBatchEffects (out : String → String) (fs : List String) : List Effect :=
  fs.foldr (fun f acc => Effect.transpile f :: Effect.writeOutput (out f) :: acc) []

theorem take_succ_getD (l : List String) (n : Nat) (h : n < l.length) :
    l.take (n + 1) = l.take n ++ [l.getD n ""] := by
  rw [List.take_succ, List.getElem?_eq_getElem h, List.getD_eq_getElem l "" h]
  rfl

theorem getD_mem_take : ∀ (fs : List String) (k i : Nat), i < k → k ≤ fs.length →
    fs.getD i "" ∈ fs.take k := by
  intro fs
  induction fs with
  | nil =>
    intro k i h1 h2
    simp only [List.length_nil, Nat.le_zero] at h2
    exact absurd h1 (by omega)
  | cons f fs ih =>
    intro k i h1 h2
    cases k with
    | zero => exact absurd h1 (by omega)
    | succ k =>
      rw [List.take_succ_cons]
      cases i with
      | zero => exact List.mem_cons_self _ _
      | succ i =>
        exact List.mem_cons_of_mem _ (ih k i (by omega) (by simpa using h2))

/-- Shape of a batch that fails at position `k` after `k` successes: the units
before `k` are transpiled and written in order, unit `k` is transpiled and the
batch stops with its error; nothing after `k` is touched. -/
theorem processBatch_error_char (tr : String → Except String String)
    (out : String → String) (e : String) :
    ∀ (fs : List String) (k : Nat), k < fs.length →
    (∀ i, i < k → trOk (tr (fs.getD i "")) = true) →
    tr (fs.getD k "") = Except.error e →
    processBatch tr out fs =
      (okBatchEffects out (fs.take k) ++ [Effect.transpile (fs.getD k "")],
       (fs.take k).map out, Except.error e) := by
  intro fs
  induction fs with
  | nil => intro k hk; simp at hk
  | cons f fs ih =>
    intro k hk hok he
    cases k with
    | zero =>
      have hf : tr f = Except.error e := he
      simp [processBatch, hf, okBatchEffects]
    | succ k =>
      have h0 : trOk (tr f) = true := hok 0 (Nat.succ_pos k)
      cases htr : tr f with
      | error e' => rw [htr] at h0; simp [trOk] at h0
      | ok c =>
        have hk' : k < fs.length := by simpa using hk
        have hok' : ∀ i, i < k → trOk (tr (fs.getD i "")) = true := by
          intro i hi
          exact hok (i + 1) (by omega)
        have he' : tr (fs.getD k "") = Except.error e := he
        simp only [processBatch, htr, ih k hk' hok' he']
        simp [okBatchEffects, List.take_succ_cons, List.getD_cons_succ]

theorem transpiledOf_append (a b : List Effect) :
    transpiledOf (a ++ b) = transpiledOf a ++ transpiledOf b := by
  simp [transpiledOf]

theorem transpiledOf_reads (ps : List String) : transpiledOf (readEffectsOf ps) = [] := by
  induction ps with
  | nil => rfl
  | cons p ps ih =>
    show transpiledOf (readEffectsOf ps) = []
    exact ih

theorem transpiledOf_publishes (ps : List String) :
    transpiledOf (ps.map Effect.publish) = [] := by
  induction ps with
  | nil => rfl
  | cons p ps ih =>
    show transpiledOf (ps.map Effect.publish) = []
    exact ih

theorem transpiledOf_ipfsEffects (l : Ledger) (files : List String) :
    transpiledOf (ipfsEffects l files) = [] := by
  unfold ipfsEffects
  rw [transpiledOf_append, transpiledOf_publishes]
  by_cases h : publishCalls l files = [] <;> simp [h, transpiledOf]

theorem transpiledOf_snapshot_cons (l : List Effect) :
    transpiledOf (Effect.snapshot :: l) = transpiledOf l := rfl

theorem transpiledOf_okBatch (out : String → String) (fs : List String) :
    transpiledOf (okBatchEffects out fs) = fs := by
  induction fs with
  | nil => rfl
  | cons f fs ih =>
    show f :: transpiledOf (okBatchEffects out fs) = f :: fs
    rw [ih]

theorem transpiledOf_single (f : String) : transpiledOf [Effect.transpile f] = [f] := rfl

theorem writtenOf_append (a b : List Effect) :
    writtenOf (a ++ b) = writtenOf a ++ writtenOf b := by
  simp [writtenOf]

theorem writtenOf_reads (ps : List String) : writtenOf (readEffectsOf ps) = [] := by
  induction ps with
  | nil => rfl
  | cons p ps ih =>
    show writtenOf (readEffectsOf ps) = []
    exact ih

theorem writtenOf_publishes (ps : List String) :
    writtenOf (ps.map Effect.publish) = [] := by
  induction ps with
  | nil => rfl
  | cons p ps ih =>
    show writtenOf (ps.map Effect.publish) = []
    exact ih

theorem writtenOf_ipfsEffects (l : Ledger) (files : List String) :
    writtenOf (ipfsEffects l files) = [] := by
  unfold ipfsEffects
  rw [writtenOf_append, writtenOf_publishes]
  by_cases h : publishCalls l files = [] <;> simp [h, writtenOf]

theorem writtenOf_snapshot_cons (l : List Effect) :
    writtenOf (Effect.snapshot :: l) = writtenOf l := rfl

theorem writtenOf_okBatch (out : String → String) (fs : List String) :
    writtenOf (okBatchEffects out fs) = fs.map out := by
  induction fs with
  | nil => rfl
  | cons f fs ih =>
    show out f :: writtenOf (okBatchEffects out fs) = out f :: fs.map out
    rw [ih]

theorem writtenOf_single_transpile (f : String) : writtenOf [Effect.transpile f] = [] := rfl

/-- Shape of a fully successful batch: every unit is transpiled and written in
order and the batch ends with `ok`. -/
theorem processBatch_ok_char (tr : String → Except String String) (out : String → String) :
    ∀ fs : List String, (∀ f ∈ fs, trOk (tr f) = true) →
    processBatch tr out fs = (okBatchEffects out fs, fs.map out, Except.ok ()) := by
  intro fs
  induction fs with
  | nil => intro _; rfl
  | cons f fs ih =>
    intro h
    have h0 : trOk (tr f) = true := h f (List.mem_cons_self _ _)
    cases htr : tr f with
    | error e' => rw [htr] at h0; simp [trOk] at h0
    | ok c =>
      have hrest : ∀ g ∈ fs, trOk (tr g) = true :=
        fun g hg => h g (List.mem_cons_of_mem _ hg)
      simp only [processBatch, htr, ih hrest]
      simp [okBatchEffects]

theorem transpiledOf_removes (ps : List String) :
    transpiledOf (ps.map Effect.removeFile) = [] := by
  induction ps with
  | nil => rfl
  | cons p ps ih =>
    show transpiledOf (ps.map Effect.removeFile) = []
    exact ih

theorem transpiledOf_gen_single : transpiledOf [Effect.genData] = [] := rfl

/-- Claim C6: batch semantics are fail-fast without rollback, in both batches,
and modules always run before widgets.
(1) If module unit `k` fails after `k` successes, the build surfaces that
error, the transpile trace is exactly the modules up to and including `k` (no
later module, no widget), the writes are exactly those of the units before `k`,
and those files remain in the output directory (no rollback).
(2) If every module succeeds and widget unit `k` fails after `k` successes, the
build surfaces that error, the transpile trace is all modules followed by the
widgets up to and including `k`, the writes are every module output followed by
the first `k` widget outputs, and all of those files remain on disk.
(3) When every unit of both catalogs transpiles, the transpile trace is the
whole module catalog followed by the whole widget catalog — all modules are
processed before any widget begins. -/
theorem batch_fail_fast (src dest : String) (w : World) (cfg : Config) (ic : IpfsCfg)
    (hc : w.configResult = some cfg) (hi : cfg.ipfs = some ic) :
    (∀ k e, k < (modulesOf w).length →
      (∀ i, i < k → trOk (w.transpile ((modulesOf w).getD i "")) = true) →
      w.transpile ((modulesOf w).getD k "") = Except.error e →
      (buildApp src dest w).result = Except.error e ∧
      transpiledOf (buildApp src dest w).effects = (modulesOf w).take (k + 1) ∧
      writtenOf (buildApp src dest w).effects
        = ((modulesOf w).take k).map (fun f => outPath dest (moduleOutName src f)) ∧
      ∀ i, i < k →
        outPath dest (moduleOutName src ((modulesOf w).getD i ""))
          ∈ (buildApp src dest w).finalOutputs) ∧
    (∀ k e, (∀ f ∈ modulesOf w, trOk (w.transpile f) = true) →
      k < (widgetsOf w).length →
      (∀ i, i < k → trOk (w.transpile ((widgetsOf w).getD i "")) = true) →
      w.transpile ((widgetsOf w).getD k "") = Except.error e →
      (buildApp src dest w).result = Except.error e ∧
      transpiledOf (buildApp src dest w).effects
        = modulesOf w ++ (widgetsOf w).take (k + 1) ∧
      writtenOf (buildApp src dest w).effects
        = (modulesOf w).map (fun f => outPath dest (moduleOutName src f))
          ++ ((widgetsOf w).take k).map (fun g => outPath dest (widgetOutName src g)) ∧
      (∀ f ∈ modulesOf w,
        outPath dest (moduleOutName src f) ∈ (buildApp src dest w).finalOutputs) ∧
      ∀ i, i < k →
        outPath dest (widgetOutName src ((widgetsOf w).getD i ""))
          ∈ (buildApp src dest w).finalOutputs) ∧
    ((∀ f ∈ modulesOf w, trOk (w.transpile f) = true) →
      (∀ g ∈ widgetsOf w, trOk (w.transpile g) = true) →
      transpiledOf (buildApp src dest w).effects = modulesOf w ++ widgetsOf w) := by
  refine ⟨?_, ?_, ?_⟩
  · intro k e hk hok he
    have hchar := processBatch_error_char w.transpile
      (fun f => outPath dest (moduleOutName src f)) e (modulesOf w) k hk hok he
    have hmr : (processBatch w.transpile
        (fun f => outPath dest (moduleOutName src f)) (modulesOf w)).2.2 = Except.error e := by
      rw [hchar]
    refine ⟨?_, ?_, ?_, ?_⟩
    · simp [buildApp, hc, hi, hmr]
    · simp only [buildApp, hc, hi, hmr, hchar, transpiledOf_append, transpiledOf_reads,
        transpiledOf_ipfsEffects, transpiledOf_snapshot_cons, transpiledOf_okBatch,
        transpiledOf_single, List.nil_append, List.append_nil]
      rw [← take_succ_getD _ k hk]
    · simp only [buildApp, hc, hi, hmr, hchar, writtenOf_append, writtenOf_reads,
        writtenOf_ipfsEffects, writtenOf_snapshot_cons, writtenOf_okBatch,
        writtenOf_single_transpile, List.nil_append, List.append_nil]
    · intro i hik
      simp only [buildApp, hc, hi, hmr, hchar]
      rw [mem_applyWrites]
      right
      exact List.mem_map_of_mem _ (getD_mem_take _ k i hik (le_of_lt hk))
  · intro k e hmods hk hok he
    have hmchar := processBatch_ok_char w.transpile
      (fun f => outPath dest (moduleOutName src f)) (modulesOf w) hmods
    have hwchar := processBatch_error_char w.transpile
      (fun g => outPath dest (widgetOutName src g)) e (widgetsOf w) k hk hok he
    refine ⟨?_, ?_, ?_, ?_, ?_⟩
    · simp [buildApp, hc, hi, hmchar, hwchar]
    · simp only [buildApp, hc, hi, hmchar, hwchar, transpiledOf_append, transpiledOf_reads,
        transpiledOf_ipfsEffects, transpiledOf_snapshot_cons, transpiledOf_okBatch,
        transpiledOf_single, List.nil_append, List.append_nil]
      rw [← take_succ_getD _ k hk]
    · simp only [buildApp, hc, hi, hmchar, hwchar, writtenOf_append, writtenOf_reads,
        writtenOf_ipfsEffects, writtenOf_snapshot_cons, writtenOf_okBatch,
        writtenOf_single_transpile, List.nil_append, List.append_nil]
    · intro f hf
      simp only [buildApp, hc, hi, hmchar, hwchar]
      rw [mem_applyWrites]
      right
      exact List.mem_append.mpr (Or.inl (List.mem_map_of_mem _ hf))
    · intro i hik
      simp only [buildApp, hc, hi, hmchar, hwchar]
      rw [mem_applyWrites]
      right
      exact List.mem_append.mpr
        (Or.inr (List.mem_map_of_mem _ (getD_mem_take _ k i hik (le_of_lt hk))))
  · intro hmods hwid
    have hmchar := processBatch_ok_char w.transpile
      (fun f => outPath dest (moduleOutName src f)) (modulesOf w) hmods
    have hwchar := processBatch_ok_char w.transpile
      (fun g => outPath dest (widgetOutName src g)) (widgetsOf w) hwid
    cases hda : cfg.deployAccount
    all_goals
      simp only [buildApp, hc, hi, hmchar, hwchar, hda, transpiledOf_append,
        transpiledOf_reads, transpiledOf_ipfsEffects, transpiledOf_snapshot_cons,
        transpiledOf_okBatch, transpiledOf_removes, transpiledOf_gen_single,
        List.nil_append, List.append_nil]

/-- A world whose second module unit fails to transpile. -/
def wFail : World :=
  { configResult := some cfgFull
    readJson := fun _ => none
    ledger := []
    ipfsFiles := []
    upload := fun _ => "Qm"
    moduleFiles := ["app/module/a.ts", "app/module/b.ts", "app/module/c.ts"]
    widgetFiles := ["app/widget/x.jsx"]
    priorOutputs := []
    transpile := fun f => if f = "app/module/b.ts" then Except.error "boom" else Except.ok "code"
    genData := Except.ok () }

/-- A world whose modules all succeed and whose second widget unit fails. -/
def wFailW : World :=
  { configResult := some cfgFull
    readJson := fun _ => none
    ledger := []
    ipfsFiles := []
    upload := fun _ => "Qm"
    moduleFiles := ["app/module/a.ts"]
    widgetFiles := ["app/widget/x.jsx", "app/widget/y.jsx"]
    priorOutputs := []
    transpile := fun f => if f = "app/widget/y.jsx" then Except.error "wboom" else Except.ok "code"
    genData := Except.ok () }

theorem batch_fail_fast_witness :
    ((buildApp "app" "out" wFail).result = Except.error "boom" ∧
      transpiledOf (buildApp "app" "out" wFail).effects = (modulesOf wFail).take (1 + 1) ∧
      writtenOf (buildApp "app" "out" wFail).effects
        = ((modulesOf wFail).take 1).map (fun f => outPath "out" (moduleOutName "app" f)) ∧
      ∀ i, i < 1 →
        outPath "out" (moduleOutName "app" ((modulesOf wFail).getD i ""))
          ∈ (buildApp "app" "out" wFail).finalOutputs) ∧
    ((buildApp "app" "out" wFailW).result = Except.error "wboom" ∧
      transpiledOf (buildApp "app" "out" wFailW).effects
        = modulesOf wFailW ++ (widgetsOf wFailW).take (1 + 1) ∧
      writtenOf (buildApp "app" "out" wFailW).effects
        = (modulesOf wFailW).map (fun f => outPath "out" (moduleOutName "app" f))
          ++ ((widgetsOf wFailW).take 1).map (fun g => outPath "out" (widgetOutName "app" g)) ∧
      (∀ f ∈ modulesOf wFailW,
        outPath "out" (moduleOutName "app" f) ∈ (buildApp "app" "out" wFailW).finalOutputs) ∧
      ∀ i, i < 1 →
        outPath "out" (widgetOutName "app" ((widgetsOf wFailW).getD i ""))
          ∈ (buildApp "app" "out" wFailW).finalOutputs) ∧
    transpiledOf (buildApp "app" "out" wOk).effects = modulesOf wOk ++ widgetsOf wOk :=
  ⟨(batch_fail_fast "app" "out" wFail cfgFull
      { uploadApi := some "u", uploadApiHeaders := none, gateway := some "g" } rfl rfl).1
      1 "boom" (by decide) (by decide) rfl,
   (batch_fail_fast "app" "out" wFailW cfgFull
      { uploadApi := some "u", uploadApiHeaders := none, gateway := some "g" } rfl rfl).2.1
      1 "wboom" (by decide) (by decide) (by decide) rfl,
   (batch_fail_fast "app" "out" wOk cfgFull
      { uploadApi := some "u", uploadApiHeaders := none, gateway := some "g" } rfl rfl).2.2
      (by decide) (by decide)⟩

/-! ## Character-level lemmas for the naming functions (C3, C8, C10) -/

theorem data_append (a b : String) : (a ++ b).data = a.data ++ b.data := rfl

theorem str_mk_data (s : String) : (⟨s.data⟩ : String) = s := rfl

theorem str_data_ext (a b : String) (h : a.data = b.data) : a = b := by
  cases a
  cases b
  exact congrArg String.mk h

theorem startsWith_append_self : ∀ xs ys : List Char, startsWith xs (xs ++ ys) = true := by
  intro xs ys
  induction xs with
  | nil => rfl
  | cons a as ih => simp [startsWith, ih]

/-- `relativeTo` on a path directly under `base` drops the `base ++ "/"` prefix. -/
theorem relativeTo_under (base rest : String) :
    relativeTo base ⟨base.data ++ '/' :: rest.data⟩ = rest := by
  unfold relativeTo
  have h1 : base.data ++ '/' :: rest.data = (base.data ++ ['/']) ++ rest.data := by simp
  rw [if_pos]
  · show (⟨(base.data ++ '/' :: rest.data).drop (base.data.length + 1)⟩ : String) = rest
    rw [h1]
    have h2 : base.data.length + 1 = (base.data ++ ['/']).length := by simp
    rw [h2, List.drop_left]
  · show startsWith (base.data ++ ['/']) (⟨base.data ++ '/' :: rest.data⟩ : String).data = true
    show startsWith (base.data ++ ['/']) (base.data ++ '/' :: rest.data) = true
    rw [h1]
    exact startsWith_append_self _ _

theorem foldl_afterLast_no_sep (sep : Char) :
    ∀ (xs : List Char) (a : List Char), sep ∉ xs →
    xs.foldl (fun acc c => if c = sep then [] else acc ++ [c]) a = a ++ xs := by
  intro xs
  induction xs with
  | nil => intro a _; simp
  | cons c cs ih =>
    intro a h
    simp only [List.mem_cons, not_or] at h
    simp only [List.foldl_cons]
    rw [if_neg (fun hc : c = sep => h.1 hc.symm), ih (a ++ [c]) h.2]
    simp

theorem afterLast_no_sep (sep : Char) (xs : List Char) (h : sep ∉ xs) :
    afterLast sep xs = xs := by
  unfold afterLast
  rw [foldl_afterLast_no_sep sep xs [] h]
  rfl

theorem afterLast_append_sep (sep : Char) (xs ys : List Char) :
    afterLast sep (xs ++ sep :: ys) = afterLast sep ys := by
  unfold afterLast
  rw [List.foldl_append, List.foldl_cons, if_pos rfl]

theorem splitCh_cons (sep c : Char) (cs : List Char) :
    splitCh sep (c :: cs) =
      match splitCh sep cs with
      | [] => [[]]
      | p :: ps => if c = sep then [] :: p :: ps else (c :: p) :: ps := rfl

theorem splitCh_ne_nil (sep : Char) : ∀ xs : List Char, splitCh sep xs ≠ [] := by
  intro xs
  cases xs with
  | nil => simp [splitCh]
  | cons c cs =>
    rw [splitCh_cons]
    cases hs : splitCh sep cs with
    | nil => simp
    | cons p ps => by_cases hc : c = sep <;> simp [hc]

theorem splitCh_no_sep (sep : Char) :
    ∀ xs : List Char, sep ∉ xs → splitCh sep xs = [xs] := by
  intro xs
  induction xs with
  | nil => intro _; rfl
  | cons c cs ih =>
    intro h
    simp only [List.mem_cons, not_or] at h
    have hc : ¬(c = sep) := fun hx => h.1 hx.symm
    rw [splitCh_cons, ih h.2]
    simp [hc]

theorem splitCh_append_sep (sep : Char) :
    ∀ (xs ys : List Char), sep ∉ xs →
    splitCh sep (xs ++ sep :: ys) = xs :: splitCh sep ys := by
  intro xs
  induction xs with
  | nil =>
    intro ys _
    show splitCh sep (sep :: ys) = [] :: splitCh sep ys
    rw [splitCh_cons]
    cases hs : splitCh sep ys with
    | nil => exact absurd hs (splitCh_ne_nil sep ys)
    | cons p ps => simp
  | cons c cs ih =>
    intro ys h
    simp only [List.mem_cons, not_or] at h
    have hc : ¬(c = sep) := fun hx => h.1 hx.symm
    show splitCh sep (c :: (cs ++ sep :: ys)) = (c :: cs) :: splitCh sep ys
    rw [splitCh_cons, ih ys h.2]
    simp [hc]

/-- The character written for `c` by `.split(path.sep).join(".")`. -/
def sepToDot (c : Char) : Char := if c = '/' then '.' else c

theorem joinCh_splitCh_eq_map : ∀ xs : List Char,
    joinCh '.' (splitCh '/' xs) = xs.map sepToDot := by
  intro xs
  induction xs with
  | nil => rfl
  | cons c cs ih =>
    rw [splitCh_cons]
    cases hs : splitCh '/' cs with
    | nil => exact absurd hs (splitCh_ne_nil '/' cs)
    | cons p ps =>
      rw [hs] at ih
      by_cases hc : c = '/'
      · subst hc
        simp only [if_pos rfl, List.map_cons]
        show '.' :: joinCh '.' (p :: ps) = sepToDot '/' :: cs.map sepToDot
        rw [ih]
        rfl
      · have hcd : sepToDot c = c := by simp [sepToDot, hc]
        simp only [if_neg hc, List.map_cons]
        cases ps with
        | nil =>
          show c :: p = sepToDot c :: cs.map sepToDot
          rw [← ih, hcd]
          show c :: p = c :: joinCh '.' [p]
          rfl
        | cons q qs =>
          show (c :: p) ++ '.' :: joinCh '.' (q :: qs) = sepToDot c :: cs.map sepToDot
          rw [← ih, hcd]
          show c :: (p ++ '.' :: joinCh '.' (q :: qs)) = c :: joinCh '.' (p :: q :: qs)
          rfl

theorem map_sepToDot_no_slash (xs : List Char) (h : '/' ∉ xs) : xs.map sepToDot = xs := by
  induction xs with
  | nil => rfl
  | cons c cs ih =>
    simp only [List.mem_cons, not_or] at h
    have hc : sepToDot c = c := by
      unfold sepToDot
      rw [if_neg (fun hc : c = '/' => h.1 hc.symm)]
    simp only [List.map_cons, hc]
    rw [ih h.2]

theorem replFirst_no_slash (rep : List Char) :
    ∀ xs : List Char, '/' ∉ xs → replFirst ['/'] rep xs = xs := by
  intro xs
  induction xs with
  | nil => intro _; rfl
  | cons c cs ih =>
    intro h
    simp only [List.mem_cons, not_or] at h
    unfold replFirst
    have hs : startsWith ['/'] (c :: cs) = false := by
      simp [startsWith, h.1]
    rw [hs]
    simp only [Bool.false_eq_true, if_false]
    rw [ih h.2]

theorem replFirst_slash (rep : List Char) :
    ∀ (xs ys : List Char), '/' ∉ xs →
    replFirst ['/'] rep (xs ++ '/' :: ys) = xs ++ rep ++ ys := by
  intro xs
  induction xs with
  | nil =>
    intro ys _
    show replFirst ['/'] rep ('/' :: ys) = rep ++ ys
    unfold replFirst
    have hs : startsWith ['/'] ('/' :: ys) = true := by
      simp [startsWith]
    rw [hs]
    simp
  | cons c cs ih =>
    intro ys h
    simp only [List.mem_cons, not_or] at h
    show replFirst ['/'] rep (c :: (cs ++ '/' :: ys)) = c :: (cs ++ rep ++ ys)
    unfold replFirst
    have hs : startsWith ['/'] (c :: (cs ++ '/' :: ys)) = false := by
      simp [startsWith, h.1]
    rw [hs]
    simp only [Bool.false_eq_true, if_false]
    rw [ih ys h.2]

theorem replFirst_trailing (pat : List Char) (hpat : pat ≠ []) :
    ∀ xs : List Char,
    (∀ i, i < xs.length → startsWith pat ((xs ++ pat).drop i) = false) →
    replFirst pat [] (xs ++ pat) = xs := by
  intro xs
  induction xs with
  | nil =>
    intro _
    show replFirst pat [] ([] ++ pat) = []
    rw [List.nil_append]
    cases hp : pat with
    | nil => exact absurd hp hpat
    | cons c cs =>
      unfold replFirst
      have hs : startsWith (c :: cs) (c :: cs) = true := by
        have := startsWith_append_self (c :: cs) []
        simpa using this
      rw [hs]
      simp [List.drop_length]
  | cons c cs ih =>
    intro h
    have h0 : startsWith pat ((c :: cs) ++ pat) = false := by
      have := h 0 (Nat.succ_pos _)
      simpa using this
    show replFirst pat [] (c :: (cs ++ pat)) = c :: cs
    unfold replFirst
    rw [show c :: (cs ++ pat) = (c :: cs) ++ pat from rfl, h0]
    simp only [Bool.false_eq_true, if_false]
    have hrec : replFirst pat [] (cs ++ pat) = cs := by
      apply ih
      intro i hi
      exact h (i + 1) (Nat.succ_lt_succ hi)
    rw [hrec]

theorem extnameCh_concat (A s e' : List Char)
    (hs1 : '/' ∉ s) (hs2 : '.' ∉ s) (hsne : s ≠ [])
    (he1 : '/' ∉ e') (he2 : '.' ∉ e') :
    extnameCh (A ++ '/' :: (s ++ '.' :: e')) = '.' :: e' := by
  unfold extnameCh
  have hb : afterLast '/' (A ++ '/' :: (s ++ '.' :: e')) = s ++ '.' :: e' := by
    rw [afterLast_append_sep]
    apply afterLast_no_sep
    simp [List.mem_append, List.mem_cons, hs1, he1]
  rw [hb, splitCh_append_sep '.' s e' hs2, splitCh_no_sep '.' e' he2]
  simp [hsne]

theorem take_minus (X P : List Char) :
    (X ++ P).take ((X ++ P).length - P.length) = X := by
  rw [List.length_append, Nat.add_sub_cancel, List.take_left]

theorem data_slash_module_slash :
    "/module/".data = '/' :: 'm' :: 'o' :: 'd' :: 'u' :: 'l' :: 'e' :: '/' :: [] := rfl

theorem data_slash_widget_slash :
    "/widget/".data = '/' :: 'w' :: 'i' :: 'd' :: 'g' :: 'e' :: 't' :: '/' :: [] := rfl

theorem data_slash : "/".data = ['/'] := rfl

theorem data_dot : ".".data = ['.'] := rfl

theorem data_dot_ts : ".ts".data = '.' :: 't' :: 's' :: [] := rfl

theorem data_dot_jsx : ".jsx".data = '.' :: 'j' :: 's' :: 'x' :: [] := rfl

theorem data_module_js :
    ".module.js".data = '.' :: 'm' :: 'o' :: 'd' :: 'u' :: 'l' :: 'e' :: '.' :: 'j' :: 's' :: [] := rfl

theorem data_module_word : "module".data = 'm' :: 'o' :: 'd' :: 'u' :: 'l' :: 'e' :: [] := rfl

theorem data_widget_word : "widget".data = 'w' :: 'i' :: 'd' :: 'g' :: 'e' :: 't' :: [] := rfl

/-- A path segment with no separator, no dot, and at least one character. -/
abbrev goodSeg (s : String) : Prop := '/' ∉ s.data ∧ '.' ∉ s.data ∧ s.data ≠ []

/-- Module output naming for a depth-two source path (the spec's example
shape): full flattening holds. -/
theorem moduleOutName_flat_two (src s1 s2 : String) (h1 : goodSeg s1) (h2 : goodSeg s2) :
    moduleOutName src (src ++ "/module/" ++ s1 ++ "/" ++ s2 ++ ".ts")
      = s1 ++ "." ++ s2 ++ ".module.js" := by
  have hF : (src ++ "/module/" ++ s1 ++ "/" ++ s2 ++ ".ts")
      = (⟨(pathJoin src "module").data ++ '/' :: (s1 ++ "/" ++ s2 ++ ".ts").data⟩ : String) := by
    apply str_data_ext
    simp [data_append, pathJoin, data_slash_module_slash, data_slash, data_dot_ts,
      data_module_word, List.append_assoc]
  have hrest : (s1 ++ "/" ++ s2 ++ ".ts").data
      = s1.data ++ '/' :: (s2.data ++ '.' :: 't' :: 's' :: []) := by
    simp [data_append, data_slash, data_dot_ts, List.append_assoc]
  have hext : extnameCh ((pathJoin src "module").data ++ '/' :: (s1 ++ "/" ++ s2 ++ ".ts").data)
      = '.' :: 't' :: 's' :: [] := by
    have hsplit : (pathJoin src "module").data ++ '/' :: (s1 ++ "/" ++ s2 ++ ".ts").data
        = ((pathJoin src "module").data ++ '/' :: s1.data)
          ++ '/' :: (s2.data ++ '.' :: 't' :: 's' :: []) := by
      rw [hrest]
      simp [List.append_assoc]
    rw [hsplit]
    exact extnameCh_concat _ _ _ h2.1 h2.2.1 h2.2.2 (by decide) (by decide)
  simp only [moduleOutName, hF, relativeTo_under]
  show (⟨(replFirst ['/'] ['.'] (s1 ++ "/" ++ s2 ++ ".ts").data).take
      ((replFirst ['/'] ['.'] (s1 ++ "/" ++ s2 ++ ".ts").data).length
        - (extnameCh (⟨(pathJoin src "module").data
            ++ '/' :: (s1 ++ "/" ++ s2 ++ ".ts").data⟩ : String).data).length)
    ++ ".module.js".data⟩ : String) = s1 ++ "." ++ s2 ++ ".module.js"
  rw [show (⟨(pathJoin src "module").data
      ++ '/' :: (s1 ++ "/" ++ s2 ++ ".ts").data⟩ : String).data
    = (pathJoin src "module").data ++ '/' :: (s1 ++ "/" ++ s2 ++ ".ts").data from rfl]
  rw [hext, hrest, replFirst_slash ['.'] _ _ h1.1]
  rw [show s1.data ++ ['.'] ++ (s2.data ++ '.' :: 't' :: 's' :: [])
    = (s1.data ++ '.' :: s2.data) ++ '.' :: 't' :: 's' :: [] from by simp [List.append_assoc]]
  rw [take_minus]
  apply str_data_ext
  simp [data_append, data_dot, data_module_js, List.append_assoc]

/-- Module output naming for a depth-three source path: only the *first*
separator is replaced, the second survives into the output name. -/
theorem moduleOutName_first_sep_three (src s1 s2 s3 : String)
    (h1 : goodSeg s1) (_h2 : goodSeg s2) (h3 : goodSeg s3) :
    moduleOutName src (src ++ "/module/" ++ s1 ++ "/" ++ s2 ++ "/" ++ s3 ++ ".ts")
      = s1 ++ "." ++ s2 ++ "/" ++ s3 ++ ".module.js" := by
  have hF : (src ++ "/module/" ++ s1 ++ "/" ++ s2 ++ "/" ++ s3 ++ ".ts")
      = (⟨(pathJoin src "module").data
          ++ '/' :: (s1 ++ "/" ++ s2 ++ "/" ++ s3 ++ ".ts").data⟩ : String) := by
    apply str_data_ext
    simp [data_append, pathJoin, data_slash_module_slash, data_slash, data_dot_ts,
      data_module_word, List.append_assoc]
  have hrest : (s1 ++ "/" ++ s2 ++ "/" ++ s3 ++ ".ts").data
      = s1.data ++ '/' :: (s2.data ++ '/' :: (s3.data ++ '.' :: 't' :: 's' :: [])) := by
    simp [data_append, data_slash, data_dot_ts, List.append_assoc]
  have hext : extnameCh ((pathJoin src "module").data
      ++ '/' :: (s1 ++ "/" ++ s2 ++ "/" ++ s3 ++ ".ts").data)
      = '.' :: 't' :: 's' :: [] := by
    have hsplit : (pathJoin src "module").data
        ++ '/' :: (s1 ++ "/" ++ s2 ++ "/" ++ s3 ++ ".ts").data
        = ((pathJoin src "module").data ++ '/' :: (s1.data ++ '/' :: s2.data))
          ++ '/' :: (s3.data ++ '.' :: 't' :: 's' :: []) := by
      rw [hrest]
      simp [List.append_assoc]
    rw [hsplit]
    exact extnameCh_concat _ _ _ h3.1 h3.2.1 h3.2.2 (by decide) (by decide)
  simp only [moduleOutName, hF, relativeTo_under]
  show (⟨(replFirst ['/'] ['.'] (s1 ++ "/" ++ s2 ++ "/" ++ s3 ++ ".ts").data).take
      ((replFirst ['/'] ['.'] (s1 ++ "/" ++ s2 ++ "/" ++ s3 ++ ".ts").data).length
        - (extnameCh (⟨(pathJoin src "module").data
            ++ '/' :: (s1 ++ "/" ++ s2 ++ "/" ++ s3 ++ ".ts").data⟩ : String).data).length)
    ++ ".module.js".data⟩ : String) = s1 ++ "." ++ s2 ++ "/" ++ s3 ++ ".module.js"
  rw [show (⟨(pathJoin src "module").data
      ++ '/' :: (s1 ++ "/" ++ s2 ++ "/" ++ s3 ++ ".ts").data⟩ : String).data
    = (pathJoin src "module").data
      ++ '/' :: (s1 ++ "/" ++ s2 ++ "/" ++ s3 ++ ".ts").data from rfl]
  rw [hext, hrest, replFirst_slash ['.'] _ _ h1.1]
  rw [show s1.data ++ ['.'] ++ (s2.data ++ '/' :: (s3.data ++ '.' :: 't' :: 's' :: []))
    = (s1.data ++ '.' :: (s2.data ++ '/' :: s3.data)) ++ '.' :: 't' :: 's' :: []
    from by simp [List.append_assoc]]
  rw [take_minus]
  apply str_data_ext
  simp [data_append, data_dot, data_slash, data_module_js, List.append_assoc]

/-- Widget output naming for a depth-three source path: *all* separators are
flattened to dots by the extra `.split(path.sep).join(".")`. -/
theorem widgetOutName_flat_three (src s1 s2 s3 : String)
    (h1 : goodSeg s1) (h2 : goodSeg s2) (h3 : goodSeg s3) :
    widgetOutName src (src ++ "/widget/" ++ s1 ++ "/" ++ s2 ++ "/" ++ s3 ++ ".jsx")
      = s1 ++ "." ++ s2 ++ "." ++ s3 ++ ".jsx" := by
  have hF : (src ++ "/widget/" ++ s1 ++ "/" ++ s2 ++ "/" ++ s3 ++ ".jsx")
      = (⟨(pathJoin src "widget").data
          ++ '/' :: (s1 ++ "/" ++ s2 ++ "/" ++ s3 ++ ".jsx").data⟩ : String) := by
    apply str_data_ext
    simp [data_append, pathJoin, data_slash_widget_slash, data_slash, data_dot_jsx,
      data_widget_word, List.append_assoc]
  have hrest : (s1 ++ "/" ++ s2 ++ "/" ++ s3 ++ ".jsx").data
      = s1.data ++ '/' :: (s2.data ++ '/' :: (s3.data ++ '.' :: 'j' :: 's' :: 'x' :: [])) := by
    simp [data_append, data_slash, data_dot_jsx, List.append_assoc]
  have hext : extnameCh ((pathJoin src "widget").data
      ++ '/' :: (s1 ++ "/" ++ s2 ++ "/" ++ s3 ++ ".jsx").data)
      = '.' :: 'j' :: 's' :: 'x' :: [] := by
    have hsplit : (pathJoin src "widget").data
        ++ '/' :: (s1 ++ "/" ++ s2 ++ "/" ++ s3 ++ ".jsx").data
        = ((pathJoin src "widget").data ++ '/' :: (s1.data ++ '/' :: s2.data))
          ++ '/' :: (s3.data ++ '.' :: 'j' :: 's' :: 'x' :: []) := by
      rw [hrest]
      simp [List.append_assoc]
    rw [hsplit]
    exact extnameCh_concat _ _ _ h3.1 h3.2.1 h3.2.2 (by decide) (by decide)
  simp only [widgetOutName, hF, relativeTo_under]
  show (⟨joinCh '.' (splitCh '/' ((replFirst ['/'] ['.'] (s1 ++ "/" ++ s2 ++ "/" ++ s3 ++ ".jsx").data).take ((replFirst ['/'] ['.'] (s1 ++ "/" ++ s2 ++ "/" ++ s3 ++ ".jsx").data).length - (extnameCh (⟨(pathJoin src "widget").data ++ '/' :: (s1 ++ "/" ++ s2 ++ "/" ++ s3 ++ ".jsx").data⟩ : String).data).length))) ++ ".jsx".data⟩ : String) = s1 ++ "." ++ s2 ++ "." ++ s3 ++ ".jsx"
  rw [show (⟨(pathJoin src "widget").data
      ++ '/' :: (s1 ++ "/" ++ s2 ++ "/" ++ s3 ++ ".jsx").data⟩ : String).data
    = (pathJoin src "widget").data
      ++ '/' :: (s1 ++ "/" ++ s2 ++ "/" ++ s3 ++ ".jsx").data from rfl]
  rw [hext, hrest, replFirst_slash ['.'] _ _ h1.1]
  rw [show s1.data ++ ['.'] ++ (s2.data ++ '/' :: (s3.data ++ '.' :: 'j' :: 's' :: 'x' :: []))
    = (s1.data ++ '.' :: (s2.data ++ '/' :: s3.data)) ++ '.' :: 'j' :: 's' :: 'x' :: []
    from by simp [List.append_assoc]]
  rw [take_minus, joinCh_splitCh_eq_map]
  rw [show (s1.data ++ '.' :: (s2.data ++ '/' :: s3.data)).map sepToDot
    = s1.data ++ '.' :: (s2.data ++ '.' :: s3.data) from by
      simp [List.map_append, List.map_cons, map_sepToDot_no_slash _ h1.1,
        map_sepToDot_no_slash _ h2.1, map_sepToDot_no_slash _ h3.1, sepToDot]]
  apply str_data_ext
  simp [data_append, data_dot, data_dot_jsx, List.append_assoc]

/-- Claim C3 (amended): output naming is deterministic, but flattening differs
between the two kinds.  For a *module* unit only the first path separator is
replaced by a dot (the spec's depth-two example `foo/bar.ts ->
foo.module.js` shape holds, while a deeper path keeps its later separators);
for a *widget* unit every separator is flattened.  Extensions are stripped and
the suffixes `.module.js` / `.jsx` appended, both under the shared output
directory. -/
theorem output_naming_characterization (src s1 s2 s3 : String)
    (h1 : goodSeg s1) (h2 : goodSeg s2) (h3 : goodSeg s3) :
    moduleOutName src (src ++ "/module/" ++ s1 ++ "/" ++ s2 ++ ".ts")
      = s1 ++ "." ++ s2 ++ ".module.js" ∧
    moduleOutName src (src ++ "/module/" ++ s1 ++ "/" ++ s2 ++ "/" ++ s3 ++ ".ts")
      = s1 ++ "." ++ s2 ++ "/" ++ s3 ++ ".module.js" ∧
    widgetOutName src (src ++ "/widget/" ++ s1 ++ "/" ++ s2 ++ "/" ++ s3 ++ ".jsx")
      = s1 ++ "." ++ s2 ++ "." ++ s3 ++ ".jsx" :=
  ⟨moduleOutName_flat_two src s1 s2 h1 h2,
   moduleOutName_first_sep_three src s1 s2 s3 h1 h2 h3,
   widgetOutName_flat_three src s1 s2 s3 h1 h2 h3⟩

theorem output_naming_characterization_witness :
    moduleOutName "app" ("app" ++ "/module/" ++ "foo" ++ "/" ++ "bar" ++ ".ts")
      = "foo" ++ "." ++ "bar" ++ ".module.js" ∧
    moduleOutName "app" ("app" ++ "/module/" ++ "foo" ++ "/" ++ "bar" ++ "/" ++ "baz" ++ ".ts")
      = "foo" ++ "." ++ "bar" ++ "/" ++ "baz" ++ ".module.js" ∧
    widgetOutName "app" ("app" ++ "/widget/" ++ "foo" ++ "/" ++ "bar" ++ "/" ++ "baz" ++ ".jsx")
      = "foo" ++ "." ++ "bar" ++ "." ++ "baz" ++ ".jsx" :=
  output_naming_characterization "app" "foo" "bar" "baz"
    (by decide) (by decide) (by decide)

/-- Claim C3 counterexample: for the module unit `a/b/c.ts` (two separators)
the code produces `a.b/c.module.js` — `String.replace(path.sep, ".")` replaces
only the first separator — not the fully flattened `a.b.c.module.js` the claim
requires. -/
theorem module_output_keeps_deep_separators :
    moduleOutName "app" "app/module/a/b/c.ts" = "a.b/c.module.js" ∧
    "a.b/c.module.js" ≠ "a.b.c.module.js" := by
  constructor
  · decide
  · decide

/-! ## C8: build-context module names -/

/-- Claim C8 (amended): the module-name list entry for a file is its path
relative to the module root after deleting the *first occurrence* of the
extension substring from the whole path; whenever the extension substring
occurs nowhere before the trailing extension, this coincides with the claimed
"strip only the trailing extension". -/
theorem module_names_strip_trailing_ext_when_unique (src stem e : String)
    (he : e.data ≠ [])
    (hext : extname (src ++ "/module/" ++ stem ++ e) = e)
    (hocc : ∀ i, i < (src ++ "/module/" ++ stem).data.length →
      startsWith e.data (((src ++ "/module/" ++ stem) ++ e).data.drop i) = false) :
    moduleNames src [src ++ "/module/" ++ stem ++ e] = [stem] := by
  have hstep : replaceFirst (src ++ "/module/" ++ stem ++ e) e "" = src ++ "/module/" ++ stem := by
    unfold replaceFirst
    have hdata : (src ++ "/module/" ++ stem ++ e).data
        = (src ++ "/module/" ++ stem).data ++ e.data := rfl
    rw [hdata]
    rw [replFirst_trailing e.data he _ hocc]
  have hbase : (src ++ "/module/" ++ stem)
      = (⟨(pathJoin src "module").data ++ '/' :: stem.data⟩ : String) := by
    apply str_data_ext
    simp [data_append, pathJoin, data_slash_module_slash, data_module_word, List.append_assoc]
  show [moduleName src (src ++ "/module/" ++ stem ++ e)] = [stem]
  unfold moduleName
  rw [hext, hstep, hbase, relativeTo_under]

theorem module_names_strip_trailing_ext_when_unique_witness :
    moduleNames "app" ["app" ++ "/module/" ++ "a/b" ++ ".ts"] = ["a/b"] :=
  module_names_strip_trailing_ext_when_unique "app" "a/b" ".ts"
    (by decide) (by decide) (by decide)

/-- Claim C8 counterexample: `file.replace(path.extname(file), "")` removes the
*first* occurrence of the extension substring anywhere in the path, not the
trailing extension.  For a module file `a.ts.d/b.ts` the build context records
the name `a.d/b.ts` (the `.ts` inside the directory name is deleted and the
real extension survives), not the claimed `a.ts.d/b`. -/
theorem module_name_strips_first_occurrence :
    moduleNames "app" ["app/module/a.ts.d/b.ts"] = ["a.d/b.ts"] ∧
    (["a.d/b.ts"] : List String) ≠ ["a.ts.d/b"] := by
  constructor
  · decide
  · decide

/-! ## C10: module and widget outputs never collide -/

theorem moduleOutName_ne_widgetOutName (src src' f g : String) :
    moduleOutName src f ≠ widgetOutName src' g := by
  intro h
  have hd := congrArg String.data h
  simp only [moduleOutName, widgetOutName] at hd
  have hrev := congrArg List.reverse hd
  simp only [List.reverse_append] at hrev
  rw [show (".module.js".data).reverse
      = 's' :: 'j' :: '.' :: 'e' :: 'l' :: 'u' :: 'd' :: 'o' :: 'm' :: '.' :: [] from rfl,
    show (".jsx".data).reverse = 'x' :: 's' :: 'j' :: '.' :: [] from rfl] at hrev
  simp [List.cons_append] at hrev

/-- Claim C10: module and widget artifact paths are disjoint — every module
output ends in `.module.js`, every widget output in `.jsx`, and no path can end
in both, so a widget write never overwrites a module artifact even when a
module and a widget share the same relative path minus extension. -/
theorem module_widget_outputs_disjoint (src dest : String) (mf wf : List String) (p : String)
    (hp : p ∈ mf.map (fun f => outPath dest (moduleOutName src f))) :
    p ∉ wf.map (fun g => outPath dest (widgetOutName src g)) := by
  intro hq
  obtain ⟨f, _, rfl⟩ := List.mem_map.mp hp
  obtain ⟨g, _, heq⟩ := List.mem_map.mp hq
  have hd := congrArg String.data heq
  simp only [outPath, pathJoin] at hd
  have hcancel := List.append_cancel_left hd
  have htail : (widgetOutName src g).data = (moduleOutName src f).data :=
    List.tail_eq_of_cons_eq hcancel
  exact moduleOutName_ne_widgetOutName src src f g
    (str_data_ext _ _ htail.symm)

theorem module_widget_outputs_disjoint_witness :
    outPath "out" (moduleOutName "app" "app/module/a.ts")
      ∉ ["app/widget/a.ts"].map (fun g => outPath "out" (widgetOutName "app" g)) :=
  module_widget_outputs_disjoint "app" "out" ["app/module/a.ts"] ["app/widget/a.ts"]
    (outPath "out" (moduleOutName "app" "app/module/a.ts")) (by decide)


/-! ## C9: the default alias source path

The loop at `build.ts` lines 28-33 reads `path.join(src, aliasesSrc)` where the
default `aliasesSrc` is already `path.join(src, "aliases.json")`, so the
default alias file is looked up at `join(src, join(src, "aliases.json"))`.
Whether that coincides with `join(src, "aliases.json")` depends on Node
`path.join`'s normalization, modelled below. -/

/-- Segment resolution of Node's path normalization: `".."` pops the previous
real segment, accumulates at the front of a relative path, and is discarded at
the root of an absolute one.  `stack` holds the already-resolved segments in
reverse. -/
def resolveAux (abs : Bool) : List (List Char) → List (List Char) → List (List Char)
  | stack, [] => stack.reverse
  | stack, s :: rest =>
    if s = ['.', '.'] then
      match stack with
      | t :: ts =>
        if t = ['.', '.'] then resolveAux abs (s :: t :: ts) rest
        else resolveAux abs ts rest
      | [] => if abs then resolveAux abs [] rest else resolveAux abs [s] rest
    else resolveAux abs (s :: stack) rest

/-- Node `path.normalize` on a path string: empty and `"."` segments are
dropped, `".."` segments are resolved, an absolute path keeps its leading
separator, and an empty result becomes `"."` (or `"/"` when absolute).
Trailing-separator preservation is not modelled; no call site produces one. -/
def pathNormalize (p : String) : String :=
  let abs := startsWith ['/'] p.data
  let segs := (splitCh '/' p.data).filter (fun s => !(s == []) && !(s == ['.']))
  let body := joinCh '/' (resolveAux abs [] segs)
  if body.isEmpty then (if abs then "/" else ".")
  else if abs then ⟨'/' :: body⟩ else ⟨body⟩

/-- Node `path.join(a, b)`: the non-empty arguments are joined with the
separator and the result normalized; with no non-empty argument the result is
`"."`. -/
def pathJoinNorm (a b : String) : String :=
  if a == "" && b == "" then "."
  else if a == "" then pathNormalize b
  else if b == "" then pathNormalize a
  else pathNormalize ⟨a.data ++ '/' :: b.data⟩

theorem joinCh_splitCh_same (sep : Char) : ∀ xs : List Char,
    joinCh sep (splitCh sep xs) = xs := by
  intro xs
  induction xs with
  | nil => rfl
  | cons c cs ih =>
    rw [splitCh_cons]
    cases hs : splitCh sep cs with
    | nil => exact absurd hs (splitCh_ne_nil sep cs)
    | cons p ps =>
      rw [hs] at ih
      by_cases hc : c = sep
      · subst hc
        simp only [if_pos rfl]
        show c :: joinCh c (p :: ps) = c :: cs
        rw [ih]
      · simp only [if_neg hc]
        cases ps with
        | nil =>
          show c :: p = c :: cs
          rw [← ih]
          rfl
        | cons q qs =>
          show (c :: p) ++ sep :: joinCh sep (q :: qs) = c :: cs
          rw [← ih]
          rfl

theorem resolveAux_no_dotdot (abs : Bool) :
    ∀ (segs stack : List (List Char)), (∀ s ∈ segs, s ≠ ['.', '.']) →
    resolveAux abs stack segs = stack.reverse ++ segs := by
  intro segs
  induction segs with
  | nil => intro stack _; simp [resolveAux]
  | cons s rest ih =>
    intro stack h
    have hs : s ≠ ['.', '.'] := h s (List.mem_cons_self _ _)
    simp only [resolveAux]
    rw [if_neg hs, ih (s :: stack) (fun t ht => h t (List.mem_cons_of_mem _ ht))]
    simp

theorem filter_good_segs : ∀ segs : List (List Char),
    (∀ s ∈ segs, s ≠ [] ∧ s ≠ ['.']) →
    segs.filter (fun s => !(s == []) && !(s == ['.'])) = segs := by
  intro segs h
  rw [List.filter_eq_self]
  intro s hs
  simp [(h s hs).1, (h s hs).2]

theorem startsWith_slash_false (xs : List Char) (h1 : xs ≠ []) (h2 : '/' ∉ xs)
    (ys : List Char) : startsWith ['/'] (xs ++ ys) = false := by
  cases xs with
  | nil => exact absurd rfl h1
  | cons c cs =>
    simp only [List.mem_cons, not_or] at h2
    show (('/' : Char) == c && startsWith [] (cs ++ ys)) = false
    simp [startsWith, h2.1]

/-- A path whose segments are all real names (no empty, `"."` or `".."`
segment) and that does not start with the separator is already normal. -/
theorem pathNormalize_normal (p : List Char)
    (habs : startsWith ['/'] p = false)
    (hsegs : ∀ s ∈ splitCh '/' p, s ≠ [] ∧ s ≠ ['.'] ∧ s ≠ ['.', '.']) :
    pathNormalize ⟨p⟩ = ⟨p⟩ := by
  have hp : p ≠ [] := by
    intro hnil
    subst hnil
    exact (hsegs [] (by simp [splitCh])).1 rfl
  have hpe : p.isEmpty = false := by
    cases p with
    | nil => exact absurd rfl hp
    | cons a as => rfl
  simp only [pathNormalize]
  rw [filter_good_segs _ (fun s hs => ⟨(hsegs s hs).1, (hsegs s hs).2.1⟩)]
  rw [resolveAux_no_dotdot (startsWith ['/'] p) (splitCh '/' p) []
    (fun s hs => (hsegs s hs).2.2)]
  simp only [List.reverse_nil, List.nil_append]
  rw [joinCh_splitCh_same]
  simp only [habs, hpe, Bool.false_eq_true, if_false]

/-- Where its arguments are non-empty and the joined path is already normal,
Node `path.join` coincides with plain concatenation. -/
theorem pathJoinNorm_eq_concat (a b : String)
    (ha0 : a.data ≠ []) (hb0 : b.data ≠ [])
    (habs : startsWith ['/'] (a.data ++ '/' :: b.data) = false)
    (hsegs : ∀ s ∈ splitCh '/' (a.data ++ '/' :: b.data),
      s ≠ [] ∧ s ≠ ['.'] ∧ s ≠ ['.', '.']) :
    pathJoinNorm a b = pathJoin a b := by
  have hane : a ≠ "" := by
    intro h
    apply ha0
    rw [h]
  have hbne : b ≠ "" := by
    intro h
    apply hb0
    rw [h]
  have hae : (a == "") = false := beq_eq_false_iff_ne.mpr hane
  have hbe : (b == "") = false := beq_eq_false_iff_ne.mpr hbne
  simp only [pathJoinNorm, hae, hbe, Bool.false_and, Bool.false_eq_true, if_false]
  rw [pathNormalize_normal _ habs hsegs]
  rfl

theorem pathJoinNorm_root_single (src : String) (h : goodSeg src) :
    pathJoinNorm src "aliases.json" = pathJoin src "aliases.json" := by
  apply pathJoinNorm_eq_concat src "aliases.json" h.2.2 (by decide)
  · exact startsWith_slash_false src.data h.2.2 h.1 _
  · intro s hs
    rw [splitCh_append_sep '/' _ _ h.1, splitCh_no_sep '/' _ (by decide)] at hs
    simp only [List.mem_cons, List.not_mem_nil, or_false] at hs
    rcases hs with rfl | rfl
    · refine ⟨h.2.2, ?_, ?_⟩
      · intro he
        apply h.2.1
        rw [he]
        simp
      · intro he
        apply h.2.1
        rw [he]
        simp
    · exact ⟨by decide, by decide, by decide⟩

theorem pathJoinNorm_root_double (src : String) (h : goodSeg src) :
    pathJoinNorm src (pathJoin src "aliases.json")
      = pathJoin src (pathJoin src "aliases.json") := by
  apply pathJoinNorm_eq_concat src (pathJoin src "aliases.json") h.2.2
  · show src.data ++ '/' :: "aliases.json".data ≠ []
    simp
  · exact startsWith_slash_false src.data h.2.2 h.1 _
  · intro s hs
    rw [show src.data ++ '/' :: (pathJoin src "aliases.json").data
      = src.data ++ '/' :: (src.data ++ '/' :: "aliases.json".data) from rfl] at hs
    rw [splitCh_append_sep '/' _ _ h.1, splitCh_append_sep '/' _ _ h.1,
      splitCh_no_sep '/' _ (by decide)] at hs
    simp only [List.mem_cons, List.not_mem_nil, or_false] at hs
    rcases hs with rfl | rfl | rfl
    · refine ⟨h.2.2, ?_, ?_⟩
      · intro he
        apply h.2.1
        rw [he]
        simp
      · intro he
        apply h.2.1
        rw [he]
        simp
    · refine ⟨h.2.2, ?_, ?_⟩
      · intro he
        apply h.2.1
        rw [he]
        simp
      · intro he
        apply h.2.1
        rw [he]
        simp
    · exact ⟨by decide, by decide, by decide⟩

/-- Claim C9 (amended): with no configured alias list, the single alias source
read joins the source root onto itself — the path read is
`join(src, join(src, "aliases.json"))`.  For every plain directory-name root
(non-empty, no separator, no dot) this is the genuine Node-`path.join` value
and differs from `join(src, "aliases.json")`, so the intended default file is
not loaded and the alias table degrades to the empty mapping when nothing
exists at the doubled path; at the degenerate roots `"."` and `""` Node's
normalization collapses the two paths (see the counterexample), so the original
universally quantified claim fails there. -/
theorem default_alias_source_joins_src_twice (src dest : String) (w : World) (cfg : Config)
    (hc : w.configResult = some cfg) (ha : cfg.aliases = none) :
    readPathsOf (buildApp src dest w).effects
      = [pathJoin src (pathJoin src "aliases.json")] ∧
    (goodSeg src →
      pathJoin src (pathJoin src "aliases.json")
        = pathJoinNorm src (pathJoinNorm src "aliases.json") ∧
      pathJoinNorm src (pathJoinNorm src "aliases.json")
        ≠ pathJoinNorm src "aliases.json") ∧
    (w.readJson (pathJoin src (pathJoin src "aliases.json")) = none →
      (buildApp src dest w).aliases = []) := by
  refine ⟨?_, ?_, ?_⟩
  · rw [buildApp_readPaths]
    simp [aliasSources, hc, ha]
  · intro hroot
    have hsingle := pathJoinNorm_root_single src hroot
    have hdouble := pathJoinNorm_root_double src hroot
    constructor
    · rw [hsingle, hdouble]
    · rw [hsingle, hdouble]
      intro hcontra
      have hlen := congrArg (fun s : String => s.data.length) hcontra
      simp [pathJoin, List.length_append] at hlen
  · intro hnone
    rw [buildApp_aliases]
    simp [aliasSources, hc, ha, loadAliases, hnone]
    rfl

theorem default_alias_source_joins_src_twice_witness :
    readPathsOf (buildApp "app" "out" wBare).effects
      = [pathJoin "app" (pathJoin "app" "aliases.json")] ∧
    (pathJoin "app" (pathJoin "app" "aliases.json")
        = pathJoinNorm "app" (pathJoinNorm "app" "aliases.json") ∧
      pathJoinNorm "app" (pathJoinNorm "app" "aliases.json")
        ≠ pathJoinNorm "app" "aliases.json") ∧
    (buildApp "app" "out" wBare).aliases = [] :=
  ⟨(default_alias_source_joins_src_twice "app" "out" wBare cfgBare rfl rfl).1,
   (default_alias_source_joins_src_twice "app" "out" wBare cfgBare rfl rfl).2.1 (by decide),
   (default_alias_source_joins_src_twice "app" "out" wBare cfgBare rfl rfl).2.2 rfl⟩

/-- Claim C9 counterexample: under Node `path.join`'s normalization the claim's
universal quantification over source roots fails — at the realistic root `"."`
the doubled join collapses onto the single join, both being `"aliases.json"`,
so a file at `join(src, "aliases.json")` *is* loaded there. -/
theorem default_alias_source_collapses_at_dot_root :
    pathJoinNorm "." (pathJoinNorm "." "aliases.json")
      = pathJoinNorm "." "aliases.json" ∧
    pathJoinNorm "." "aliases.json" = "aliases.json" := by
  constructor
  · decide
  · decide
